import Mathlib

set_option linter.all false
set_option maxRecDepth 10000

/-! Verification development for the obfuscation-resistant lexical matcher
implemented in `swear_filter.py` of the Moderator repository.  Python
functions are shallowly embedded as executable Lean definitions working on
`String` / `List Char`; the stateful `SwearFilter` methods thread their state
explicitly.  Regex-based helpers are embedded as direct scanners implementing
the leftmost, non-overlapping substitution semantics of `re.sub` and the
search semantics of `re.search` for the concrete patterns that appear in the
source. -/

/-- Python's `\s` (equivalently `str.isspace`) character set, as matched by
`re` on `str`.  Used by `squash`/`strip` steps, token splitting and
`str.strip`. -/
def isPySpace (c : Char) : Bool :=
  c.val == 0x20 || c.val == 0x09 || c.val == 0x0a || c.val == 0x0b ||
  c.val == 0x0c || c.val == 0x0d || (0x1c ≤ c.val && c.val ≤ 0x1f) ||
  c.val == 0x85 || c.val == 0xa0 || c.val == 0x1680 ||
  (0x2000 ≤ c.val && c.val ≤ 0x200a) || c.val == 0x2028 || c.val == 0x2029 ||
  c.val == 0x202f || c.val == 0x205f || c.val == 0x3000

def isAsciiLowerCh (c : Char) : Bool := 'a' ≤ c && c ≤ 'z'

def isAsciiUpperCh (c : Char) : Bool := 'A' ≤ c && c ≤ 'Z'

def isAsciiLetterCh (c : Char) : Bool := isAsciiLowerCh c || isAsciiUpperCh c

def isAsciiDigitCh (c : Char) : Bool := '0' ≤ c && c ≤ '9'

def isAsciiAlnumCh (c : Char) : Bool := isAsciiLetterCh c || isAsciiDigitCh c

/-- ASCII fragment of Python's `\w`.  The pipeline only applies it to
preprocessed text (ASCII alphanumerics plus whitespace) and to the hidden
separator code points, on which it agrees with the full Unicode class. -/
def isWordCh (c : Char) : Bool := isAsciiAlnumCh c || c == '_'

/-- HIDDEN_SEPARATORS from swear_filter.py: invisible / zero-width /
separator code points. -/
def HIDDEN_SEPARATORS : List Char :=
  ['\u200B', '\u200C', '\u200D', '\u2060',
   '\u034F', '\u180E', '\uFEFF',
   '\u00AD',
   '\u17B5', '\u17B6',
   '\u2028', '\u2029',
   '\u1160', '\u3164']

/-- The hidden separators that Python regex whitespace does not match (all
of them except the line / paragraph separators U+2028 and U+2029). -/
def nonSpaceHiddenSeparators : List Char :=
  ['\u200B', '\u200C', '\u200D', '\u2060',
   '\u034F', '\u180E', '\uFEFF',
   '\u00AD',
   '\u17B5', '\u17B6',
   '\u1160', '\u3164']

/-- Modelled from the NFKC normalization call of the source, restricted to a
character-wise map on the code points this development exercises: ASCII and
the hidden separators are NFKC-invariant except for U+3164 HANGUL FILLER,
whose compatibility decomposition is U+1160 HANGUL CHOSEONG FILLER. -/
def nfkcChar (c : Char) : Char :=
  if c = '\u3164' then '\u1160' else c

def nfkcStr (s : String) : String := String.mk (s.data.map nfkcChar)

/-- HOMOGLYPHS table from swear_filter.py (Cyrillic and small-capital
lookalikes mapped to Latin base letters). -/
def HOMOGLYPHS : List (Char × Char) :=
  [('ѕ', 's'), ('с', 'c'), ('е', 'e'), ('а', 'a'),
   ('р', 'p'), ('о', 'o'), ('і', 'i'),
   ('ԁ', 'd'), ('ӏ', 'l'), ('һ', 'h'), ('ԛ', 'q'),
   ('ᴀ', 'a'), ('ʙ', 'b'), ('ᴄ', 'c'),
   ('ᴅ', 'd'), ('ᴇ', 'e'), ('ғ', 'f'), ('ɢ', 'g'),
   ('н', 'h'), ('ɪ', 'i'), ('ᴊ', 'j'),
   ('ᴋ', 'k'), ('ʟ', 'l'), ('ᴍ', 'm'), ('ɴ', 'n'),
   ('ᴏ', 'o'), ('ᴘ', 'p'), ('ǫ', 'q'),
   ('ʀ', 'r'), ('ᴛ', 't'), ('ᴜ', 'u'), ('ᴠ', 'v'),
   ('ᴡ', 'w'), ('ʏ', 'y'), ('ᴢ', 'z')]

def homoglyphChar (c : Char) : Char := ((HOMOGLYPHS.lookup c).getD c)

/-- normalize_homoglyphs from swear_filter.py. -/
def normalize_homoglyphs (s : String) : String :=
  String.mk (s.data.map homoglyphChar)

def squashAux : Char → List Char → List Char
  | _, [] => []
  | p, c :: cs => if c = p then squashAux p cs else c :: squashAux c cs

/-- squash_repeats from swear_filter.py: the substitution
`(.)\1+ -> \1`, i.e. every maximal run of one repeated character collapses
to a single occurrence. -/
def squash_repeats (s : String) : String :=
  String.mk (match s.data with
    | [] => []
    | c :: cs => c :: squashAux c cs)

/-- Word-boundary test of `\b` immediately before a word character, given
the preceding character (none at the start of the string). -/
def boundaryBefore : Option Char → Bool
  | none => true
  | some p => !(isWordCh p)

/-- Greedy parse of the `(?:\s+[a-z])*` continuation of a spaced-letter
chain: returns the parsed (whitespace-run, letter) steps and the remaining
characters.  Fuel-driven; callers pass the length of the list. -/
def chainSteps : Nat → List Char → List (List Char × Char) × List Char
  | 0, l => ([], l)
  | fuel + 1, l =>
    let ws := l.takeWhile isPySpace
    if ws.isEmpty then ([], l)
    else
      match l.dropWhile isPySpace with
      | d :: rest2 =>
        if isAsciiLetterCh d then
          let p := chainSteps fuel rest2
          ((ws, d) :: p.1, p.2)
        else ([], l)
      | [] => ([], l)

def flattenSteps (steps : List (List Char × Char)) : List Char :=
  steps.flatMap fun s => s.1 ++ [s.2]

/-- Attempt to match the spaced-letter pattern (a letter, then two or more
repetitions of whitespace-plus-letter, word-boundary anchored on both sides)
at a letter `c` followed by `cs` (the boundary before `c` is checked by the
caller).  On a match returns the replacement text (the matched span with its
U+0020 characters removed, which is what the replacement lambda of the
source does), the last character of the matched span, and the remaining
input. -/
def tryCollapseMatch (c : Char) (cs : List Char) :
    Option (List Char × Char × List Char) :=
  let r := chainSteps cs.length cs
  let steps := r.1
  let rem := r.2
  let wordAfter :=
    match rem with
    | d :: _ => isWordCh d
    | [] => false
  if wordAfter then
    match steps.getLast? with
    | some lastStep =>
      if 3 ≤ steps.length then
        let steps2 := steps.dropLast
        let matched := (c :: flattenSteps steps2).filter (fun x => x != ' ')
        some (matched, ((steps2.getLast?).getD ([], c)).2,
              lastStep.1 ++ lastStep.2 :: rem)
      else none
    | none => none
  else
    if 2 ≤ steps.length then
      let matched := (c :: flattenSteps steps).filter (fun x => x != ' ')
      some (matched, ((steps.getLast?).getD ([], c)).2, rem)
    else none

def collapseGo : Nat → Option Char → List Char → List Char
  | 0, _, l => l
  | _ + 1, _, [] => []
  | fuel + 1, prev, c :: cs =>
    if boundaryBefore prev && isAsciiLetterCh c then
      match tryCollapseMatch c cs with
      | some (matched, lastC, rest) => matched ++ collapseGo fuel (some lastC) rest
      | none => c :: collapseGo fuel (some c) cs
    else c :: collapseGo fuel (some c) cs

/-- collapse_spaced_letters from swear_filter.py: the case-insensitive
substitution replacing every word-boundary-anchored chain of three or more
single letters separated by whitespace with the matched text minus its
space characters, applied left to right without overlap. -/
def collapse_spaced_letters (s : String) : String :=
  String.mk (collapseGo s.data.length none s.data)

/-- strip_nonalpha_punct from swear_filter.py: delete every character that
is neither an ASCII alphanumeric nor whitespace. -/
def strip_nonalpha_punct (s : String) : String :=
  String.mk (s.data.filter fun c => isAsciiAlnumCh c || isPySpace c)

/-- Python str.lower restricted to ASCII; the pipeline applies it to text
whose non-ASCII characters (if any) are whitespace code points, on which
lower() is the identity. -/
def strLower (s : String) : String := String.mk (s.data.map Char.toLower)

/-- Python str.strip(): drop leading and trailing whitespace. -/
def pyStrip (s : String) : String :=
  String.mk (((s.data.dropWhile isPySpace).reverse.dropWhile isPySpace).reverse)

/-- preprocess_text_for_filtering from swear_filter.py: NFKC fold, homoglyph
fold, repeat squashing, spaced-letter collapsing, punctuation stripping,
lowercasing and trimming, in this order. -/
def preprocess_text_for_filtering (text : String) : String :=
  pyStrip (strLower (strip_nonalpha_punct
    (collapse_spaced_letters (squash_repeats
      (normalize_homoglyphs (nfkcStr text))))))

def splitRunsAux (p : Char → Bool) : List Char → List Char → List (List Char)
  | [], acc => if acc.isEmpty then [] else [acc.reverse]
  | c :: cs, acc =>
    if p c then splitRunsAux p cs (c :: acc)
    else if acc.isEmpty then splitRunsAux p cs []
    else acc.reverse :: splitRunsAux p cs []

/-- Maximal runs of characters satisfying `p`, in order. -/
def splitRuns (p : Char → Bool) (l : List Char) : List (List Char) :=
  splitRunsAux p l []

/-- re.findall of `\S+`: the whitespace-separated raw tokens of a message. -/
def rawTokens (message : String) : List String :=
  (splitRuns (fun c => !(isPySpace c)) message.data).map String.mk

def trimApostrophes (l : List Char) : List Char :=
  ((l.dropWhile (fun c => c == '\'')).reverse.dropWhile (fun c => c == '\'')).reverse

/-- re.findall of `\b[\w']+\b`: maximal runs of word characters and
apostrophes, with unmatchable leading / trailing apostrophes trimmed and
apostrophe-only runs discarded. -/
def wordTokens (s : String) : List String :=
  (splitRuns (fun c => isWordCh c || c == '\'') s.data).filterMap fun r =>
    let t := trimApostrophes r
    if t.isEmpty then none else some (String.mk t)

/-- Single-character keys of REVERSE_SUBSTITUTIONS from swear_filter.py,
each mapped to the option list that expand_all_normalizations derives for
it (the set of base characters the key can stand for, already sorted the
way the source sorts it, by length and then lexically).  Only the ASCII
keys are listed: the multi-character keys of the Python table can never be
returned by a single-character lookup, and the non-ASCII keys do not occur
in any string this development evaluates the expansion on. -/
def reverseSubstitutionPairs : List (Char × List Char) :=
  [('a', ['4', 'a']), ('b', ['6', '8', 'b']), ('c', ['c']), ('d', ['d']),
   ('e', ['3', 'e']), ('f', ['f']), ('g', ['9', 'g']), ('h', ['4', 'h']),
   ('i', ['1', 'i', 'l']), ('j', ['j']), ('k', ['k']), ('l', ['i', 'l']),
   ('m', ['m']), ('n', ['n']), ('o', ['0', 'o']), ('p', ['p']),
   ('q', ['q']), ('r', ['r']), ('s', ['5', 's']), ('t', ['7', 't']),
   ('u', ['u', 'v']), ('v', ['u', 'v']), ('w', ['w']), ('x', ['x']),
   ('y', ['y']), ('z', ['2', 'z']),
   ('A', ['4', 'a']), ('B', ['6', '8', 'b']), ('C', ['c']), ('D', ['d']),
   ('E', ['3', 'e']), ('F', ['f']), ('G', ['9', 'g']), ('H', ['4', 'h']),
   ('I', ['1', 'i', 'l']), ('J', ['j']), ('K', ['k']), ('L', ['i', 'l']),
   ('M', ['m']), ('N', ['n']), ('O', ['0', 'o']), ('P', ['p']),
   ('Q', ['q']), ('R', ['r']), ('S', ['5', 's']), ('T', ['7', 't']),
   ('U', ['u', 'v']), ('V', ['u', 'v']), ('W', ['w']), ('X', ['x']),
   ('Y', ['y']), ('Z', ['2', 'z']),
   ('0', ['0', 'o']), ('1', ['1', 'i', 'l']), ('2', ['2', 'z']),
   ('3', ['3', 'e']), ('4', ['4', 'a']), ('5', ['5', 's']),
   ('6', ['6', '8', 'b']), ('7', ['7', 't']), ('8', ['6', '8', 'b']),
   ('9', ['9', 'g']),
   ('@', ['4', 'a', 'u']), ('(', ['c']), ('<', ['c']), ('|', ['1', 'i', 'l']),
   ('!', ['1', 'i']), ('#', ['h']), ('$', ['s']), ('+', ['7', 't']),
   ('*', ['0', '1', '2', '3', '4', '5', '6', '7', '8', 'a', 'b', 'c', 'e',
          'i', 'l', 'o', 's', 't', 'u', 'v', 'x', 'z'])]

/-- Per-character option list used by expand_all_normalizations:
`REVERSE_SUBSTITUTIONS.get(char, set of char)`, sorted. -/
def charOptions (c : Char) : List Char :=
  (reverseSubstitutionPairs.lookup c).getD [c]

/-- Cartesian product of the per-position option lists, in the enumeration
order of itertools.product (rightmost position varies fastest). -/
def charCombos : List (List Char) → List (List Char)
  | [] => [[]]
  | os :: rest => os.flatMap fun c => (charCombos rest).map (c :: ·)

/-- Accumulation loop of expand_all_normalizations: insert each combination
into the (duplicate-free, insertion-ordered) result and stop as soon as the
result size has reached the cap. -/
def expandLoop (cap : Nat) : List (List Char) → List String → List String
  | [], acc => acc
  | c :: rest, acc =>
    let s := String.mk c
    let acc2 := if s ∈ acc then acc else acc ++ [s]
    if cap ≤ acc2.length then acc2 else expandLoop cap rest acc2

/-- expand_all_normalizations from swear_filter.py: the bounded, duplicate-
free enumeration of every way of rereading each character of the word as one
of its possible base characters. -/
def expand_all_normalizations (word : String) (max_variants : Nat) : List String :=
  expandLoop max_variants (charCombos (word.data.map charOptions)) []

/-- Default cap of expand_all_normalizations, used by the raw-token stage of
contains_swear_word (which passes no explicit cap). -/
def wholeTokenExpansionCap : Nat := 50000

/-- Cap used by the substring expansion inside the root+suffix stage of
contains_swear_word (which also calls expand_all_normalizations without an
explicit cap, hence also gets the 50000 default). -/
def rootSuffixExpansionCap : Nat := 50000

/-- Default `limit` of the helper method `_expand_variants`, which no code
path of contains_swear_word invokes. -/
def expandVariantsDefaultLimit : Nat := 10000

/-- Leftmost, non-overlapping replacement of the two-character pattern
`x y` by the single character `z` (the shape shared by the sub calls
ck to k, ph to f, th to t and the two-character normalization keys). -/
def replacePair (x y z : Char) : List Char → List Char
  | a :: b :: rest =>
    if a = x ∧ b = y then z :: replacePair x y z rest
    else a :: replacePair x y z (b :: rest)
  | l => l

/-- Net character-level effect of the single-character substitutions of
NORMALIZATION_MAP on ASCII text (every ASCII key of the map together with
the base character it normalizes to; keys equal to their value and the
non-ASCII keys, which cannot match ASCII text, are omitted because they are
no-ops there). -/
def normCharPairs : List (Char × Char) :=
  [('v', 'u'), ('4', 'a'), ('@', 'a'), ('*', 'a'), ('8', 'b'), ('6', 'b'),
   ('(', 'c'), ('<', 'c'), ('3', 'e'), ('9', 'g'), ('#', 'h'), ('1', 'i'),
   ('!', 'i'), ('|', 'i'), ('0', 'o'), ('5', 's'), ('$', 's'), ('7', 't'),
   ('+', 't'), ('2', 'z')]

def normChar (c : Char) : Char :=
  let c2 := c.toLower
  (normCharPairs.lookup c2).getD c2

/-- normalize_to_base from swear_filter.py, as it acts on the lowercase
text simple_metaphone feeds it: the two-character ASCII keys of
NORMALIZATION_MAP are substituted first (longest keys first, in map order),
then the single-character keys act as the character-wise map `normChar`.
Non-ASCII keys cannot match such text and are omitted. -/
def normalize_to_base (s : String) : String :=
  let l1 := replacePair 's' 's' 'b' s.data
  let l2 := replacePair '|' ')' 'd' l1
  let l3 := replacePair '(' ')' 'o' l2
  let l4 := replacePair 'v' 'v' 'w' l3
  let l5 := replacePair 'u' 'u' 'w' l4
  let l6 := replacePair '>' '<' 'x' l5
  String.mk (l6.map normChar)

def isVowelCh (c : Char) : Bool :=
  c == 'a' || c == 'e' || c == 'i' || c == 'o' || c == 'u'

/-- Metaphone rule: a vowel followed by h loses the h. -/
def ruleVowelH : List Char → List Char
  | a :: 'h' :: rest =>
    if isVowelCh a then a :: ruleVowelH rest else a :: ruleVowelH ('h' :: rest)
  | a :: rest => a :: ruleVowelH rest
  | [] => []

/-- Metaphone rule: gh disappears in front of i, e or y (lookahead not
consumed). -/
def ruleSilentGh : List Char → List Char
  | 'g' :: 'h' :: d :: rest =>
    if d = 'i' ∨ d = 'e' ∨ d = 'y' then ruleSilentGh (d :: rest)
    else 'g' :: ruleSilentGh ('h' :: d :: rest)
  | a :: rest => a :: ruleSilentGh rest
  | [] => []

/-- Metaphone rule: c becomes k unless followed by e, i or y. -/
def ruleHardC : List Char → List Char
  | 'c' :: rest =>
    (match rest with
     | d :: _ =>
       if d = 'e' ∨ d = 'i' ∨ d = 'y' then 'c' :: ruleHardC rest
       else 'k' :: ruleHardC rest
     | [] => ['k'])
  | a :: rest => a :: ruleHardC rest
  | [] => []

/-- Metaphone rule: qu becomes kw. -/
def ruleQu : List Char → List Char
  | 'q' :: 'u' :: rest => 'k' :: 'w' :: ruleQu rest
  | a :: rest => a :: ruleQu rest
  | [] => []

/-- Metaphone rule: x becomes ks. -/
def ruleX : List Char → List Char
  | 'x' :: rest => 'k' :: 's' :: ruleX rest
  | a :: rest => a :: ruleX rest
  | [] => []

/-- Metaphone rule: sch becomes sk. -/
def ruleSch : List Char → List Char
  | 's' :: 'c' :: 'h' :: rest => 's' :: 'k' :: ruleSch rest
  | a :: rest => a :: ruleSch rest
  | [] => []

/-- Metaphone rule: an anchored two-character start `x y` is replaced by
the single character `z` (silent kn / gn / pn / wr starts). -/
def ruleStartPair (x y z : Char) (l : List Char) : List Char :=
  match l with
  | a :: b :: rest => if a = x ∧ b = y then z :: rest else a :: b :: rest
  | _ => l

/-- Metaphone rule: a trailing mb loses the b. -/
def ruleEndMb (l : List Char) : List Char :=
  match l.reverse with
  | 'b' :: 'm' :: rest => ('m' :: rest).reverse
  | _ => l

/-- Middle positions of the soft-c rule: a character other than s, then c,
then e, i or y; the c becomes s and scanning resumes at the lookahead. -/
def ruleSoftCMid : List Char → List Char
  | p :: 'c' :: d :: rest =>
    if p ≠ 's' ∧ (d = 'i' ∨ d = 'e' ∨ d = 'y') then p :: 's' :: ruleSoftCMid (d :: rest)
    else p :: ruleSoftCMid ('c' :: d :: rest)
  | a :: rest => a :: ruleSoftCMid rest
  | [] => []

/-- Metaphone rule: c before e, i or y becomes s unless preceded by s
(including the start-anchored case). -/
def ruleSoftC (l : List Char) : List Char :=
  match l with
  | 'c' :: d :: rest =>
    if d = 'i' ∨ d = 'e' ∨ d = 'y' then 's' :: ruleSoftCMid (d :: rest)
    else ruleSoftCMid l
  | _ => ruleSoftCMid l

/-- Middle positions of the gh-to-g rule: a character other than f, then
gh; the h disappears. -/
def ruleGhGMid : List Char → List Char
  | p :: 'g' :: 'h' :: rest =>
    if p ≠ 'f' then p :: 'g' :: ruleGhGMid rest
    else p :: ruleGhGMid ('g' :: 'h' :: rest)
  | a :: rest => a :: ruleGhGMid rest
  | [] => []

/-- Metaphone rule: gh becomes g unless preceded by f. -/
def ruleGhG (l : List Char) : List Char :=
  match l with
  | 'g' :: 'h' :: rest => 'g' :: ruleGhGMid rest
  | _ => ruleGhGMid l

/-- Middle positions of the ch-to-k rule: a character other than t, then
ch; the ch becomes k. -/
def ruleChKMid : List Char → List Char
  | p :: 'c' :: 'h' :: rest =>
    if p ≠ 't' then p :: 'k' :: ruleChKMid rest
    else p :: ruleChKMid ('c' :: 'h' :: rest)
  | a :: rest => a :: ruleChKMid rest
  | [] => []

/-- Metaphone rule: ch becomes k unless preceded by t. -/
def ruleChK (l : List Char) : List Char :=
  match l with
  | 'c' :: 'h' :: rest => 'k' :: ruleChKMid rest
  | _ => ruleChKMid l

/-- Insertion sort on characters by code point, as Python sorted() orders
single characters. -/
def insertSorted (c : Char) : List Char → List Char
  | [] => [c]
  | d :: rest => if c ≤ d then c :: d :: rest else d :: insertSorted c rest

def sortChars : List Char → List Char
  | [] => []
  | c :: rest => insertSorted c (sortChars rest)

/-- simple_metaphone from swear_filter.py with its default maximum length 8:
lowercase, normalize to base characters, apply the replacement rules in
source order, then for strings of length at least 4 sort the middle between
the anchored first and last character, and truncate. -/
def simple_metaphone (s : String) : String :=
  let t := normalize_to_base (strLower s)
  let l1 := t.data.filter isAsciiLowerCh
  let l2 := ruleVowelH l1
  let l3 := ruleSilentGh l2
  let l4 := replacePair 'c' 'k' 'k' l3
  let l5 := ruleHardC l4
  let l6 := replacePair 'p' 'h' 'f' l5
  let l7 := ruleQu l6
  let l8 := ruleX l7
  let l9 := (match l8 with
    | [] => []
    | c :: cs => c :: squashAux c cs)
  let l10 := ruleSch l9
  let l11 := replacePair 't' 'h' 't' l10
  let l12 := ruleStartPair 'k' 'n' 'n' l11
  let l13 := ruleStartPair 'g' 'n' 'n' l12
  let l14 := ruleStartPair 'p' 'n' 'n' l13
  let l15 := ruleStartPair 'w' 'r' 'r' l14
  let l16 := ruleEndMb l15
  let l17 := ruleSoftC l16
  let l18 := ruleGhG l17
  let l19 := ruleChK l18
  let l20 :=
    if 4 ≤ l19.length then
      match l19 with
      | first :: rest => first :: (sortChars rest.dropLast ++ [rest.getLastD first])
      | [] => []
    else l19
  String.mk (l20.take 8)

/-- Does `l` start with the character sequence `p`. -/
def startsWithChars : List Char → List Char → Bool
  | [], _ => true
  | _ :: _, [] => false
  | p :: ps, c :: cs => p == c && startsWithChars ps cs

/-- Python substring containment (the `in` operator on str). -/
def containsSub : List Char → List Char → Bool
  | hay, needle =>
    startsWithChars needle hay ||
    match hay with
    | [] => false
    | _ :: t => containsSub t needle

/-- Word-boundary test after a match that ends in a word character: the
following character must be absent or a non-word character. -/
def boundaryAfter : List Char → Bool
  | [] => true
  | d :: _ => !(isWordCh d)

/-- Shape of one CONTEXT_WHITELIST regex: an alternation of literal
prefixes, a literal stem, optionally `\s*`, an alternation of literal
suffixes, optionally a trailing word boundary; the whole match anchored at
a word boundary in front. -/
structure PatSpec where
  pres : List String
  stem : String
  wsStar : Bool
  sufs : List String
  endB : Bool

def matchPatHere (p : PatSpec) (l : List Char) : Bool :=
  p.pres.any fun pre =>
    startsWithChars pre.data l &&
    (let r1 := l.drop pre.data.length
     startsWithChars p.stem.data r1 &&
     (let r2 := r1.drop p.stem.data.length
      let r3 := if p.wsStar then r2.dropWhile isPySpace else r2
      p.sufs.any fun suf =>
        startsWithChars suf.data r3 &&
        (!p.endB || boundaryAfter (r3.drop suf.data.length))))

/-- re.search of a whitelist pattern: try every position, requiring a word
boundary in front of the match. -/
def scanPat (p : PatSpec) : Option Char → List Char → Bool
  | _, [] => false
  | prev, c :: cs =>
    (boundaryBefore prev && matchPatHere p (c :: cs)) || scanPat p (some c) cs

def searchPat (p : PatSpec) (l : List Char) : Bool := scanPat p none l

def cuntPat1 : PatSpec :=
  ⟨[""], "cunt", false, ["ry", "ries", "ing", "ed", "ious", "ure", "ship"], true⟩

def cuntPat2 : PatSpec := ⟨["dis", "re"], "cunt", false, [""], true⟩

def cuntPat3 : PatSpec := ⟨[""], "count", false, [""], true⟩

def cuntPat4 : PatSpec := ⟨[""], "account", false, [""], true⟩

def assPat1 : PatSpec :=
  ⟨[""], "ass", true,
   ["ignment", "essment", "ociation", "embly", "ets", "ist", "uming", "ert"],
   false⟩

def assPat2 : PatSpec := ⟨["cl", "gr", "m", "p"], "ass", false, [""], true⟩

def assPat3 : PatSpec := ⟨["embr", "harr"], "ass", false, [""], false⟩

def cockPat1 : PatSpec :=
  ⟨[""], "cock", false, ["tail", "atoo", "pit", "roach"], false⟩

def cockPat2 : PatSpec := ⟨[""], "peacock", false, [""], true⟩

def cockPat3 : PatSpec := ⟨[""], "hancock", false, [""], true⟩

def cockPat4 : PatSpec := ⟨[""], "shuttlecock", false, [""], true⟩

def hellPat1 : PatSpec :=
  ⟨[""], "hell", false, ["o", "icopter", "met", "ium", "enic"], false⟩

def hellPat2 : PatSpec := ⟨[""], "shell", false, [""], true⟩

def hellPat3 : PatSpec := ⟨[""], "othello", false, [""], true⟩

/-- The later (active) definition of SwearFilter._check_context: if the word
has CONTEXT_WHITELIST rules, search its patterns in order against the
original message (case-insensitively); words without registered rules are
never whitelisted.  The per-rule wall-clock timeout of the source cannot
alter the result for these fixed patterns and is not modelled. -/
def check_context (message : String) (word : String) : Bool :=
  let l := message.data.map Char.toLower
  if word = "cunt" then
    searchPat cuntPat1 l || searchPat cuntPat2 l || searchPat cuntPat3 l ||
    searchPat cuntPat4 l
  else if word = "ass" then
    searchPat assPat1 l || searchPat assPat2 l || searchPat assPat3 l
  else if word = "cock" then
    searchPat cockPat1 l || searchPat cockPat2 l || searchPat cockPat3 l ||
    searchPat cockPat4 l
  else if word = "hell" then
    searchPat hellPat1 l || searchPat hellPat2 l || searchPat hellPat3 l
  else false

/-- SHORT_SWEARS from swear_filter.py (the distinct elements of the set
literal). -/
def SHORT_SWEARS : List String :=
  ["fx", "fk", "sht", "wtf", "ffs", "ngr", "bch", "cnt", "dck",
   "fck", "sh1", "5ht", "vgn", "prn", "f4n", "n1g", "k3k", "fku",
   "ass", "fuk", "fuc", "fgs", "wth", "dmn", "prk", "twt"]

/-- Character class `[1378245609@#$+*]` of _check_short_swears. -/
def leetStripChars : List Char :=
  ['1', '3', '7', '8', '2', '4', '5', '6', '0', '9', '@', '#', '$', '+', '*']

/-- SwearFilter._check_short_swears: a short text matches directly, or after
stripping common leetspeak digits and symbols. -/
def check_short_swears (text : String) : Bool :=
  if text.length ≤ 3 && strLower text ∈ SHORT_SWEARS then true
  else
    let normalized := String.mk ((strLower text).data.filter
      fun c => !(c ∈ leetStripChars))
    normalized.length ≤ 3 && normalized ∈ SHORT_SWEARS

/-- COMMON_SAFE_WORDS from swear_filter.py (the distinct elements of the set
literal). -/
def COMMON_SAFE_WORDS : List String :=
  ["penistone", "lightwater", "cockburn", "mianus",
   "hello", "tatsuki", "cumming", "clitheroe", "twatt", "fanny",
   "assington", "bitchfield", "titcomb", "rape", "shitterton",
   "prickwillow", "whale", "beaver", "cocktail", "passage", "classic",
   "grassland", "bassist", "butterfly", "shipment", "shooting",
   "language", "counting", "cluster", "glassware", "testes", "scrotum",
   "vaginal", "urethra", "mastectomy", "vasectomy", "nucleus",
   "molecular", "pascal", "vascular", "fascial", "cockermouth",
   "cockbridge"]

/-- Keep the first occurrence of each element (the effect of building a
Python set from the construction-time generator, viewed as an
order-insensitive collection). -/
def dedupFirst (l : List String) : List String :=
  l.foldl (fun acc x => if x ∈ acc then acc else acc ++ [x]) []

/-- State of a SwearFilter instance: the constructor-normalized banned-term
set, the safe-word set (empty after construction, assignable externally),
the strict-mode flag, and the insertion-ordered result cache. -/
structure SwearFilter where
  swear_words : List String
  safe_words : List String
  strict_mode : Bool
  message_cache : List (String × Bool)

def cacheMaxSize : Nat := 1000

/-- SwearFilter.__init__: lowercase and trim every supplied term, keep the
set of results; the safe-word set starts empty and the cache starts empty. -/
def mkSwearFilter (ws : List String) (strict : Bool) : SwearFilter :=
  { swear_words := dedupFirst (ws.map fun w => pyStrip (strLower w))
    safe_words := []
    strict_mode := strict
    message_cache := [] }

/-- SwearFilter._cache_message_result: when the cache is full, evict the
first-inserted entry, then store the verdict (updating in place if the
message is already a key, as the dict assignment does). -/
def cachePut (cache : List (String × Bool)) (m : String) (r : Bool) :
    List (String × Bool) :=
  let c1 := if cacheMaxSize ≤ cache.length then cache.drop 1 else cache
  if c1.any (fun p => p.1 == m) then
    c1.map fun p => if p.1 == m then (m, r) else p
  else c1 ++ [(m, r)]

/-- Raw-token stage of contains_swear_word: some whitespace-separated token
of the unprocessed message has a variant expansion that hits the banned set. -/
def rawStageHit (swears : List String) (message : String) : Bool :=
  (rawTokens message).any fun w =>
    (expand_all_normalizations w wholeTokenExpansionCap).any fun v => v ∈ swears

/-- Safe-word stage: some normalized token is in the safe-word set and not
itself a banned term; the whole message is then classified as allowed. -/
def safeStageHit (swears safes : List String) (words : List String) : Bool :=
  words.any fun w => w ∈ safes && !(w ∈ swears)

/-- Direct-match stage: some normalized token is a banned term whose context
is not whitelisted. -/
def directStageHit (swears : List String) (message : String)
    (words : List String) : Bool :=
  words.any fun w => w ∈ swears && !(check_context message w)

/-- Root+suffix stage: some window of a normalized token, of the length of a
banned term of length at least 3, expands to that term, with a residual
suffix of at most 3 characters and no whitelisted context. -/
def rootSuffixStageHit (swears : List String) (message : String)
    (words : List String) : Bool :=
  words.any fun w =>
    swears.any fun s =>
      3 ≤ s.length &&
      (List.range (w.length + 1 - s.length)).any fun i =>
        decide (s ∈ expand_all_normalizations
          (String.mk ((w.data.drop i).take s.length)) rootSuffixExpansionCap) &&
        (w.length - (i + s.length) ≤ 3) &&
        !(check_context message w)

/-- Short-form stage: the message is a single normalized token of length at
most 3 that is listed in SHORT_SWEARS. -/
def shortStageHit (words : List String) : Bool :=
  match words with
  | [w] => w.length ≤ 3 && w ∈ SHORT_SWEARS
  | _ => false

/-- Phonetic stage: the metaphone key of some banned term is a substring of
the metaphone key of the normalized message, and the context of that term
is not whitelisted. -/
def phoneticStageHit (swears : List String) (message : String)
    (normalized : String) : Bool :=
  let ph := simple_metaphone normalized
  swears.any fun s =>
    containsSub ph.data (simple_metaphone s).data && !(check_context message s)

/-- SwearFilter.contains_swear_word.  The cache probe reflects the walrus
pattern of the source: only a stored true verdict is returned early, while a
stored false verdict fails the truthiness test and falls through to the full
pipeline.  Every other exit stores its verdict in the cache.  Returns the
verdict together with the updated filter state. -/
def contains_swear_word (f : SwearFilter) (message : String) :
    Bool × SwearFilter :=
  match f.message_cache.lookup message with
  | some true => (true, f)
  | _ =>
    if message.data.isEmpty || f.swear_words.isEmpty then
      (false, { f with message_cache := cachePut f.message_cache message false })
    else if rawStageHit f.swear_words message then
      (true, { f with message_cache := cachePut f.message_cache message true })
    else
      let normalized := preprocess_text_for_filtering message
      let words := wordTokens normalized
      if safeStageHit f.swear_words f.safe_words words then
        (false, { f with message_cache := cachePut f.message_cache message false })
      else if directStageHit f.swear_words message words then
        (true, { f with message_cache := cachePut f.message_cache message true })
      else if rootSuffixStageHit f.swear_words message words then
        (true, { f with message_cache := cachePut f.message_cache message true })
      else if shortStageHit words then
        (true, { f with message_cache := cachePut f.message_cache message true })
      else if phoneticStageHit f.swear_words message normalized then
        (true, { f with message_cache := cachePut f.message_cache message true })
      else
        (false, { f with message_cache := cachePut f.message_cache message false })

/-- Insert a character at position `i` of a string (used to state the
separator-insertion claims). -/
def insertCharAt (s : String) (i : Nat) (c : Char) : String :=
  String.mk (s.data.take i ++ c :: s.data.drop i)

/-- List-level body of squash_repeats, for stating its algebraic lemmas. -/
def squashList : List Char → List Char
  | [] => []
  | c :: cs => c :: squashAux c cs

/-- The lowercase ASCII letters. -/
def asciiLowercaseLetters : List Char := "abcdefghijklmnopqrstuvwxyz".data

/-- The lowercase ASCII letters and the decimal digits. -/
def lowercaseAlnumChars : List Char :=
  "abcdefghijklmnopqrstuvwxyz0123456789".data

/-! Basic lemmas about the embedded helper functions. -/

theorem startsWithChars_sound :
    ∀ (p l : List Char), startsWithChars p l = true → p <+: l
  | [], l, _ => List.nil_prefix
  | p :: ps, [], h => by simp [startsWithChars] at h
  | p :: ps, c :: cs, h => by
    simp only [startsWithChars, Bool.and_eq_true, beq_iff_eq] at h
    exact List.cons_prefix_cons.mpr ⟨h.1, startsWithChars_sound ps cs h.2⟩

theorem scanPat_stem_occurs (p : PatSpec) :
    ∀ (prev : Option Char) (l : List Char),
      scanPat p prev l = true → p.stem.data <:+: l := by
  intro prev l
  induction l generalizing prev with
  | nil => intro h; simp [scanPat] at h
  | cons c cs ih =>
    intro h
    simp only [scanPat, Bool.or_eq_true, Bool.and_eq_true] at h
    rcases h with ⟨_, hmatch⟩ | h
    · simp only [matchPatHere, List.any_eq_true, Bool.and_eq_true] at hmatch
      obtain ⟨pre, _, _, hstem, _⟩ := hmatch
      have h1 : p.stem.data <+: ((c :: cs).drop pre.data.length) :=
        startsWithChars_sound _ _ hstem
      exact h1.isInfix.trans (List.drop_suffix _ _).isInfix
    · exact (ih (some c) h).trans (List.suffix_cons c cs).isInfix

theorem insertCharAt_data (t : String) (i : Nat) (c : Char) :
    (insertCharAt t i c).data = t.data.take i ++ c :: t.data.drop i := rfl

theorem mem_insertCharAt (t : String) (i : Nat) (sep : Char) (c : Char)
    (h : c ∈ (insertCharAt t i sep).data) : c ∈ t.data ∨ c = sep := by
  rw [insertCharAt_data] at h
  rcases List.mem_append.mp h with h | h
  · exact Or.inl (List.take_subset _ _ h)
  · rcases List.mem_cons.mp h with h | h
    · exact Or.inr h
    · exact Or.inl (List.drop_subset _ _ h)

theorem not_infix_insert (l : List Char) (sep : Char) (i : Nat)
    (h1 : 1 ≤ i) (h2 : i < l.length) (hsep : sep ∉ l) :
    ¬ (l <:+: (l.take i ++ sep :: l.drop i)) := by
  intro hinf
  obtain ⟨s, u, hsu⟩ := hinf
  have hlen : (s ++ l ++ u).length = (l.take i ++ sep :: l.drop i).length := by
    rw [hsu]
  have hmin : min i l.length = i := Nat.min_eq_left (Nat.le_of_lt h2)
  simp only [List.length_append, List.length_take, List.length_cons,
    List.length_drop, hmin] at hlen
  have hsum : s.length + u.length = 1 := by omega
  have hgetsep : (l.take i ++ sep :: l.drop i)[i]? = some sep := by
    rw [List.getElem?_append_right (by simp [hmin])]
    simp [hmin]
  have hcase : s.length = 0 ∨ s.length = 1 := by omega
  rcases hcase with hs | hs
  · have hs0 : s = [] := List.length_eq_zero.mp hs
    subst hs0
    simp only [List.nil_append] at hsu
    have hq : (l ++ u)[i]? = l[i]? := List.getElem?_append_left h2
    rw [hsu, hgetsep] at hq
    exact hsep (List.getElem?_mem hq.symm)
  · have hu0 : u = [] := by
      have : u.length = 0 := by omega
      exact List.length_eq_zero.mp this
    subst hu0
    simp only [List.append_nil] at hsu
    have hq : (s ++ l)[i]? = l[i - s.length]? :=
      List.getElem?_append_right (by omega)
    rw [hsu, hgetsep] at hq
    exact hsep (List.getElem?_mem hq.symm)

/-! Lemmas about the squash, collapse, strip and trim steps. -/

theorem squashAux_subset : ∀ (l : List Char) (p c : Char),
    c ∈ squashAux p l → c ∈ l
  | [], p, c, h => by simp [squashAux] at h
  | d :: ds, p, c, h => by
    simp only [squashAux] at h
    by_cases hdp : d = p
    · rw [if_pos hdp] at h
      exact List.mem_cons_of_mem d (squashAux_subset ds p c h)
    · rw [if_neg hdp] at h
      rcases List.mem_cons.mp h with h | h
      · exact h ▸ List.mem_cons_self d ds
      · exact List.mem_cons_of_mem d (squashAux_subset ds d c h)

theorem squashList_subset (l : List Char) (c : Char)
    (h : c ∈ squashList l) : c ∈ l := by
  cases l with
  | nil => simp [squashList] at h
  | cons d ds =>
    simp only [squashList] at h
    rcases List.mem_cons.mp h with h | h
    · exact h ▸ List.mem_cons_self d ds
    · exact List.mem_cons_of_mem d (squashAux_subset ds d c h)

theorem squashAux_eq_of_chain : ∀ (l : List Char) (p : Char),
    List.Chain' (· ≠ ·) (p :: l) → squashAux p l = l
  | [], p, _ => rfl
  | d :: ds, p, h => by
    have hne : p ≠ d := List.chain'_cons.mp h |>.1
    have htail : List.Chain' (· ≠ ·) (d :: ds) := List.chain'_cons.mp h |>.2
    simp only [squashAux, if_neg (Ne.symm hne)]
    rw [squashAux_eq_of_chain ds d htail]

theorem squashAux_chain : ∀ (l : List Char) (p : Char),
    List.Chain' (· ≠ ·) (p :: squashAux p l)
  | [], p => List.chain'_singleton p
  | d :: ds, p => by
    simp only [squashAux]
    by_cases hdp : d = p
    · rw [if_pos hdp]
      exact squashAux_chain ds p
    · rw [if_neg hdp]
      exact List.chain'_cons.mpr ⟨Ne.symm hdp, squashAux_chain ds d⟩

theorem squashList_chain (l : List Char) :
    List.Chain' (· ≠ ·) (squashList l) := by
  cases l with
  | nil => exact List.chain'_nil
  | cons d ds => exact squashAux_chain ds d

theorem squashList_eq_of_chain (l : List Char)
    (h : List.Chain' (· ≠ ·) l) : squashList l = l := by
  cases l with
  | nil => rfl
  | cons d ds =>
    simp only [squashList]
    rw [squashAux_eq_of_chain ds d h]

theorem squashList_idem (l : List Char) :
    squashList (squashList l) = squashList l :=
  squashList_eq_of_chain _ (squashList_chain l)

theorem squash_repeats_data (s : String) :
    (squash_repeats s).data = squashList s.data := by
  cases h : s.data with
  | nil => simp [squash_repeats, squashList, h]
  | cons c cs => simp [squash_repeats, squashList, h]

theorem chainSteps_no_space (fuel : Nat) (l : List Char)
    (h : ∀ c ∈ l, isPySpace c = false) : chainSteps fuel l = ([], l) := by
  cases fuel with
  | zero => rfl
  | succ n =>
    have hws : l.takeWhile isPySpace = [] := by
      cases l with
      | nil => rfl
      | cons c cs => simp [List.takeWhile_cons, h c (List.mem_cons_self c cs)]
    simp [chainSteps, hws]

theorem tryCollapseMatch_no_space (c : Char) (cs : List Char)
    (h : ∀ d ∈ cs, isPySpace d = false) : tryCollapseMatch c cs = none := by
  unfold tryCollapseMatch
  rw [chainSteps_no_space cs.length cs h]
  cases cs with
  | nil => rfl
  | cons d ds => by_cases hw : isWordCh d <;> simp [hw]

theorem collapseGo_no_space : ∀ (fuel : Nat) (prev : Option Char) (l : List Char),
    (∀ c ∈ l, isPySpace c = false) → collapseGo fuel prev l = l
  | 0, _, l, _ => rfl
  | fuel + 1, prev, [], _ => rfl
  | fuel + 1, prev, c :: cs, h => by
    have hc : ∀ d ∈ cs, isPySpace d = false :=
      fun d hd => h d (List.mem_cons_of_mem c hd)
    simp only [collapseGo]
    by_cases hb : (boundaryBefore prev && isAsciiLetterCh c) = true
    · rw [if_pos hb, tryCollapseMatch_no_space c cs hc]
      rw [collapseGo_no_space fuel (some c) cs hc]
    · rw [if_neg hb, collapseGo_no_space fuel (some c) cs hc]

theorem collapse_no_space (s : String)
    (h : ∀ c ∈ s.data, isPySpace c = false) :
    collapse_spaced_letters s = s := by
  unfold collapse_spaced_letters
  rw [collapseGo_no_space _ none s.data h]

theorem dropWhile_eq_self_of_false {p : Char → Bool} (l : List Char)
    (h : ∀ c ∈ l, p c = false) : l.dropWhile p = l := by
  cases l with
  | nil => rfl
  | cons c cs => simp [List.dropWhile_cons, h c (List.mem_cons_self c cs)]

theorem pyStrip_eq_self (s : String)
    (h : ∀ c ∈ s.data, isPySpace c = false) : pyStrip s = s := by
  unfold pyStrip
  rw [dropWhile_eq_self_of_false s.data h]
  rw [dropWhile_eq_self_of_false s.data.reverse
    (fun c hc => h c (List.mem_reverse.mp hc))]
  simp

/-! Pointwise character facts and the behaviour of the preprocessor on
plain lowercase alphanumeric text. -/

theorem string_mk_data (s : String) : String.mk s.data = s := rfl

theorem data_string_mk (l : List Char) : (String.mk l).data = l := rfl

theorem map_id_of {f : Char → Char} :
    ∀ (l : List Char), (∀ c ∈ l, f c = c) → l.map f = l
  | [], _ => rfl
  | c :: cs, h => by
    rw [List.map_cons, h c (List.mem_cons_self c cs),
      map_id_of cs (fun d hd => h d (List.mem_cons_of_mem c hd))]

theorem filter_eq_self_of {p : Char → Bool} :
    ∀ (l : List Char), (∀ c ∈ l, p c = true) → l.filter p = l
  | [], _ => rfl
  | c :: cs, h => by
    rw [List.filter_cons_of_pos (h c (List.mem_cons_self c cs)),
      filter_eq_self_of cs (fun d hd => h d (List.mem_cons_of_mem c hd))]

theorem lowerAlnum_char_facts : ∀ c ∈ lowercaseAlnumChars,
    nfkcChar c = c ∧ homoglyphChar c = c ∧
    (isAsciiAlnumCh c || isPySpace c) = true ∧
    Char.toLower c = c ∧ isPySpace c = false := by decide

theorem preprocess_plain (s : String)
    (h : ∀ c ∈ s.data, c ∈ lowercaseAlnumChars) :
    preprocess_text_for_filtering s = squash_repeats s := by
  have h1 : nfkcStr s = s := by
    unfold nfkcStr
    rw [map_id_of s.data (fun c hc => (lowerAlnum_char_facts c (h c hc)).1)]
  have h2 : normalize_homoglyphs s = s := by
    unfold normalize_homoglyphs
    rw [map_id_of s.data (fun c hc => (lowerAlnum_char_facts c (h c hc)).2.1)]
  have hmem : ∀ c ∈ (squash_repeats s).data, c ∈ lowercaseAlnumChars := by
    intro c hc
    rw [squash_repeats_data] at hc
    exact h c (squashList_subset s.data c hc)
  have h3 : collapse_spaced_letters (squash_repeats s) = squash_repeats s :=
    collapse_no_space _ (fun c hc => (lowerAlnum_char_facts c (hmem c hc)).2.2.2.2)
  have h4 : strip_nonalpha_punct (squash_repeats s) = squash_repeats s := by
    unfold strip_nonalpha_punct
    rw [filter_eq_self_of _ (fun c hc => (lowerAlnum_char_facts c (hmem c hc)).2.2.1)]
  have h5 : strLower (squash_repeats s) = squash_repeats s := by
    unfold strLower
    rw [map_id_of _ (fun c hc => (lowerAlnum_char_facts c (hmem c hc)).2.2.2.1)]
  have h6 : pyStrip (squash_repeats s) = squash_repeats s :=
    pyStrip_eq_self _ (fun c hc => (lowerAlnum_char_facts c (hmem c hc)).2.2.2.2)
  unfold preprocess_text_for_filtering
  rw [h1, h2, h3, h4, h5, h6]

theorem squash_repeats_idem (s : String) :
    squash_repeats (squash_repeats s) = squash_repeats s := by
  have hd : (squash_repeats (squash_repeats s)).data = (squash_repeats s).data := by
    rw [squash_repeats_data, squash_repeats_data, squashList_idem]
  calc squash_repeats (squash_repeats s)
      = String.mk (squash_repeats (squash_repeats s)).data := (string_mk_data _).symm
    _ = String.mk (squash_repeats s).data := by rw [hd]
    _ = squash_repeats s := string_mk_data _

/-! Reduction of a fresh-filter call of contains_swear_word to its stages. -/

theorem contains_fresh_eq (swears safes : List String) (strict : Bool) (m : String)
    (hm : m.data ≠ []) (hsw : swears ≠ []) :
    (contains_swear_word ⟨swears, safes, strict, []⟩ m).1 =
      (rawStageHit swears m ||
       (!(safeStageHit swears safes
            (wordTokens (preprocess_text_for_filtering m))) &&
        (directStageHit swears m (wordTokens (preprocess_text_for_filtering m)) ||
         (rootSuffixStageHit swears m
            (wordTokens (preprocess_text_for_filtering m)) ||
          (shortStageHit (wordTokens (preprocess_text_for_filtering m)) ||
           phoneticStageHit swears m (preprocess_text_for_filtering m)))))) := by
  have hm2 : m.data.isEmpty = false := by
    cases hd : m.data with
    | nil => exact absurd hd hm
    | cons a l => rfl
  have hsw2 : swears.isEmpty = false := by
    cases hd : swears with
    | nil => exact absurd hd hsw
    | cons a l => rfl
  cases hraw : rawStageHit swears m with
  | true => simp [contains_swear_word, hm2, hsw2, hraw]
  | false =>
    cases hsafe : safeStageHit swears safes
        (wordTokens (preprocess_text_for_filtering m)) with
    | true => simp [contains_swear_word, hm2, hsw2, hraw, hsafe]
    | false =>
      cases hdir : directStageHit swears m
          (wordTokens (preprocess_text_for_filtering m)) with
      | true => simp [contains_swear_word, hm2, hsw2, hraw, hsafe, hdir]
      | false =>
        cases hrs : rootSuffixStageHit swears m
            (wordTokens (preprocess_text_for_filtering m)) with
        | true => simp [contains_swear_word, hm2, hsw2, hraw, hsafe, hdir, hrs]
        | false =>
          cases hsh : shortStageHit (wordTokens (preprocess_text_for_filtering m)) with
          | true =>
            simp [contains_swear_word, hm2, hsw2, hraw, hsafe, hdir, hrs, hsh]
          | false =>
            cases hph : phoneticStageHit swears m (preprocess_text_for_filtering m) with
            | true =>
              simp [contains_swear_word, hm2, hsw2, hraw, hsafe, hdir, hrs, hsh, hph]
            | false =>
              simp [contains_swear_word, hm2, hsw2, hraw, hsafe, hdir, hrs, hsh, hph]

/-! Tokenization of a single plain word, and chain preservation under
insertion of a fresh character. -/

theorem splitRunsAux_all (p : Char → Bool) :
    ∀ (l : List Char) (acc : List Char), (∀ c ∈ l, p c = true) →
      splitRunsAux p l acc =
        if (acc.reverse ++ l).isEmpty then [] else [acc.reverse ++ l]
  | [], acc, _ => by
    cases hacc : acc with
    | nil => simp [splitRunsAux]
    | cons a as => simp [splitRunsAux]
  | c :: cs, acc, h => by
    have hc : p c = true := h c (List.mem_cons_self c cs)
    have ih := splitRunsAux_all p cs (c :: acc)
      (fun d hd => h d (List.mem_cons_of_mem c hd))
    have hstep : splitRunsAux p (c :: cs) acc = splitRunsAux p cs (c :: acc) := by
      simp [splitRunsAux, hc]
    rw [hstep, ih]
    have harr : (c :: acc).reverse ++ cs = acc.reverse ++ c :: cs := by
      simp [List.reverse_cons, List.append_assoc]
    rw [harr]

theorem splitRuns_all (p : Char → Bool) (l : List Char) (hl : l ≠ [])
    (h : ∀ c ∈ l, p c = true) : splitRuns p l = [l] := by
  unfold splitRuns
  rw [splitRunsAux_all p l [] h]
  have hne : l.isEmpty = false := by
    cases hd : l with
    | nil => exact absurd hd hl
    | cons a as => rfl
  simp [hne]

theorem wordTokens_single (t : String) (hne : t.data ≠ [])
    (h : ∀ c ∈ t.data, (isWordCh c || c == '\'') = true)
    (hap : ∀ c ∈ t.data, (c == '\'') = false) :
    wordTokens t = [t] := by
  unfold wordTokens
  rw [splitRuns_all _ t.data hne h]
  have htrim : trimApostrophes t.data = t.data := by
    unfold trimApostrophes
    rw [dropWhile_eq_self_of_false t.data hap]
    rw [dropWhile_eq_self_of_false t.data.reverse
      (fun c hc => hap c (List.mem_reverse.mp hc))]
    simp
  have hemp : t.data.isEmpty = false := by
    cases hd : t.data with
    | nil => exact absurd hd hne
    | cons a as => rfl
  simp [List.filterMap, htrim, hemp, string_mk_data]

theorem chain'_insertList : ∀ (l : List Char) (i : Nat) (x : Char),
    List.Chain' (· ≠ ·) l → (∀ c ∈ l, c ≠ x) →
    List.Chain' (· ≠ ·) (l.take i ++ x :: l.drop i)
  | [], i, x, _, _ => by simp
  | c :: cs, 0, x, hchain, hx => by
    simp only [List.take_zero, List.drop_zero, List.nil_append]
    exact List.chain'_cons.mpr ⟨(hx c (List.mem_cons_self c cs)).symm, hchain⟩
  | c :: cs, i + 1, x, hchain, hx => by
    simp only [List.take_succ_cons, List.drop_succ_cons, List.cons_append]
    have htail : List.Chain' (· ≠ ·) cs := hchain.tail
    have hxcs : ∀ d ∈ cs, d ≠ x := fun d hd => hx d (List.mem_cons_of_mem c hd)
    have hrec := chain'_insertList cs i x htail hxcs
    apply List.chain'_cons'.mpr
    refine ⟨?_, hrec⟩
    intro b hb
    cases hcs : cs with
    | nil =>
      subst hcs
      simp at hb
      subst hb
      exact hx c (List.mem_cons_self c [])
    | cons d ds =>
      subst hcs
      cases i with
      | zero =>
        simp at hb
        subst hb
        exact hx c (List.mem_cons_self c (d :: ds))
      | succ j =>
        simp only [List.take_succ_cons, List.cons_append, List.head?_cons,
          Option.mem_def, Option.some.injEq] at hb
        subst hb
        exact (List.chain'_cons.mp hchain).1

/-! Character facts for the separator-insertion theorem, and the effect of
the preprocessor on a banned term with one hidden separator inserted. -/

theorem lowercaseLetter_facts : ∀ c ∈ asciiLowercaseLetters,
    nfkcChar c = c ∧ homoglyphChar c = c ∧ isAsciiAlnumCh c = true ∧
    Char.toLower c = c ∧ isPySpace c = false ∧
    (isWordCh c || c == '\'') = true ∧ (c == '\'') = false := by decide

theorem sep_facts : ∀ s ∈ nonSpaceHiddenSeparators,
    isPySpace s = false ∧ isPySpace (nfkcChar s) = false ∧
    homoglyphChar (nfkcChar s) = nfkcChar s ∧
    isAsciiAlnumCh (nfkcChar s) = false ∧ isAsciiAlnumCh s = false ∧
    Char.toLower s = s := by decide

theorem string_length_data (s : String) : s.length = s.data.length := rfl

theorem preprocess_insert (t : String) (sep : Char) (i : Nat)
    (hchars : ∀ c ∈ t.data, c ∈ asciiLowercaseLetters)
    (hchain : List.Chain' (· ≠ ·) t.data)
    (hsep : sep ∈ nonSpaceHiddenSeparators)
    (h2 : i < t.length) :
    preprocess_text_for_filtering (insertCharAt t i sep) = t := by
  have hsf := sep_facts sep hsep
  have hlet : ∀ c ∈ t.data, nfkcChar c = c ∧ homoglyphChar c = c ∧
      isAsciiAlnumCh c = true ∧ Char.toLower c = c ∧ isPySpace c = false ∧
      (isWordCh c || c == '\'') = true ∧ (c == '\'') = false :=
    fun c hc => lowercaseLetter_facts c (hchars c hc)
  set sep2 := nfkcChar sep with hsep2
  -- Step 1: NFKC maps the message to take ++ sep2 :: drop.
  have hstep1 : nfkcStr (insertCharAt t i sep) =
      String.mk (t.data.take i ++ sep2 :: t.data.drop i) := by
    unfold nfkcStr
    rw [insertCharAt_data]
    rw [List.map_append, List.map_cons]
    rw [map_id_of (t.data.take i)
      (fun c hc => (hlet c (List.take_subset i t.data hc)).1)]
    rw [map_id_of (t.data.drop i)
      (fun c hc => (hlet c (List.drop_subset i t.data hc)).1)]
  -- Step 2: homoglyph folding is the identity there.
  have hstep2 : normalize_homoglyphs
      (String.mk (t.data.take i ++ sep2 :: t.data.drop i)) =
      String.mk (t.data.take i ++ sep2 :: t.data.drop i) := by
    unfold normalize_homoglyphs
    rw [data_string_mk, List.map_append, List.map_cons]
    rw [map_id_of (t.data.take i)
      (fun c hc => (hlet c (List.take_subset i t.data hc)).2.1)]
    rw [map_id_of (t.data.drop i)
      (fun c hc => (hlet c (List.drop_subset i t.data hc)).2.1)]
    rw [hsf.2.2.1]
  -- Step 3: the inserted list has no adjacent repetition, so squash is the
  -- identity.
  have hchain2 : List.Chain' (· ≠ ·) (t.data.take i ++ sep2 :: t.data.drop i) := by
    apply chain'_insertList t.data i sep2 hchain
    intro c hc heq
    have := (hlet c hc).2.2.1
    rw [heq] at this
    rw [hsf.2.2.2.1] at this
    exact Bool.false_ne_true this
  have hstep3 : squash_repeats
      (String.mk (t.data.take i ++ sep2 :: t.data.drop i)) =
      String.mk (t.data.take i ++ sep2 :: t.data.drop i) := by
    have hd := squash_repeats_data
      (String.mk (t.data.take i ++ sep2 :: t.data.drop i))
    rw [data_string_mk] at hd
    rw [squashList_eq_of_chain _ hchain2] at hd
    calc squash_repeats (String.mk (t.data.take i ++ sep2 :: t.data.drop i))
        = String.mk (squash_repeats
            (String.mk (t.data.take i ++ sep2 :: t.data.drop i))).data :=
          (string_mk_data _).symm
      _ = String.mk (t.data.take i ++ sep2 :: t.data.drop i) := by rw [hd]
  -- Step 4: no whitespace, so spaced-letter collapsing is the identity.
  have hnospace : ∀ c ∈ t.data.take i ++ sep2 :: t.data.drop i,
      isPySpace c = false := by
    intro c hc
    rcases List.mem_append.mp hc with hc | hc
    · exact (hlet c (List.take_subset i t.data hc)).2.2.2.2.1
    · rcases List.mem_cons.mp hc with hc | hc
      · rw [hc]; exact hsf.2.1
      · exact (hlet c (List.drop_subset i t.data hc)).2.2.2.2.1
  have hstep4 : collapse_spaced_letters
      (String.mk (t.data.take i ++ sep2 :: t.data.drop i)) =
      String.mk (t.data.take i ++ sep2 :: t.data.drop i) := by
    apply collapse_no_space
    rw [data_string_mk]
    exact hnospace
  -- Step 5: punctuation stripping deletes exactly the separator.
  have hstep5 : strip_nonalpha_punct
      (String.mk (t.data.take i ++ sep2 :: t.data.drop i)) = t := by
    unfold strip_nonalpha_punct
    rw [data_string_mk, List.filter_append]
    have hsepfilter : (isAsciiAlnumCh sep2 || isPySpace sep2) = false := by
      rw [hsf.2.2.2.1, hsf.2.1]
      rfl
    rw [List.filter_cons_of_neg (by rw [hsepfilter]; exact Bool.false_ne_true)]
    rw [filter_eq_self_of (t.data.take i) (fun c hc => by
      rw [(hlet c (List.take_subset i t.data hc)).2.2.1]; rfl)]
    rw [filter_eq_self_of (t.data.drop i) (fun c hc => by
      rw [(hlet c (List.drop_subset i t.data hc)).2.2.1]; rfl)]
    rw [List.take_append_drop]
  -- Steps 6 and 7: lowercasing and trimming are the identity on t.
  have hstep6 : strLower t = t := by
    unfold strLower
    rw [map_id_of t.data (fun c hc => (hlet c hc).2.2.2.1)]
  have hstep7 : pyStrip t = t :=
    pyStrip_eq_self t (fun c hc => (hlet c hc).2.2.2.2.1)
  unfold preprocess_text_for_filtering
  rw [hstep1, hstep2, hstep3, hstep4, hstep5, hstep6, hstep7]

/-! The context whitelist can never fire on a banned term with a hidden
separator inserted strictly inside it. -/

theorem searchPat_kill_via (p : PatSpec) (l target : List Char)
    (hsub : target <:+: p.stem.data) (h : ¬ (target <:+: l)) :
    searchPat p l = false := by
  cases hs : searchPat p l with
  | false => rfl
  | true => exact absurd (hsub.trans (scanPat_stem_occurs p none l hs)) h

theorem searchPat_kill_mem (p : PatSpec) (l : List Char) (c : Char)
    (hc : c ∈ p.stem.data) (hnot : c ∉ l) : searchPat p l = false := by
  cases hs : searchPat p l with
  | false => rfl
  | true => exact absurd ((scanPat_stem_occurs p none l hs).subset hc) hnot

theorem check_context_insert_false (t : String) (sep : Char) (i : Nat)
    (hchars : ∀ c ∈ t.data, c ∈ asciiLowercaseLetters)
    (hna : isAsciiAlnumCh sep = false)
    (htl : sep.toLower = sep)
    (h1 : 1 ≤ i) (h2 : i < t.length) :
    check_context (insertCharAt t i sep) t = false := by
  have hlow : (insertCharAt t i sep).data.map Char.toLower =
      (insertCharAt t i sep).data := by
    apply map_id_of
    intro c hc
    rcases mem_insertCharAt t i sep c hc with hc | hc
    · exact (lowercaseLetter_facts c (hchars c hc)).2.2.2.1
    · rw [hc]; exact htl
  have hsepnot : sep ∉ t.data := by
    intro hmem
    have halnum := (lowercaseLetter_facts sep (hchars sep hmem)).2.2.1
    rw [hna] at halnum
    exact Bool.false_ne_true halnum
  have hnoinf : ¬ (t.data <:+: (insertCharAt t i sep).data) := by
    rw [insertCharAt_data]
    exact not_infix_insert t.data sep i h1
      (by rw [string_length_data] at h2; exact h2) hsepnot
  have hmemchar : ∀ c, c ∈ (insertCharAt t i sep).data →
      isAsciiAlnumCh c = true → c ∈ t.data := by
    intro c hc hal
    rcases mem_insertCharAt t i sep c hc with h | h
    · exact h
    · exfalso
      rw [h, hna] at hal
      exact Bool.false_ne_true hal
  unfold check_context
  rw [hlow]
  by_cases h4 : t = "cunt"
  · subst h4
    have k1 : searchPat cuntPat1 (insertCharAt "cunt" i sep).data = false :=
      searchPat_kill_via _ _ _ (by decide) hnoinf
    have k2 : searchPat cuntPat2 (insertCharAt "cunt" i sep).data = false :=
      searchPat_kill_via _ _ _ (by decide) hnoinf
    have hno_o : 'o' ∉ (insertCharAt "cunt" i sep).data := by
      intro hmem
      have := hmemchar 'o' hmem (by decide)
      exact absurd this (by decide)
    have k3 : searchPat cuntPat3 (insertCharAt "cunt" i sep).data = false :=
      searchPat_kill_mem _ _ 'o' (by decide) hno_o
    have k4 : searchPat cuntPat4 (insertCharAt "cunt" i sep).data = false :=
      searchPat_kill_mem _ _ 'o' (by decide) hno_o
    simp [k1, k2, k3, k4]
  · by_cases h5 : t = "ass"
    · subst h5
      have k1 : searchPat assPat1 (insertCharAt "ass" i sep).data = false :=
        searchPat_kill_via _ _ _ (by decide) hnoinf
      have k2 : searchPat assPat2 (insertCharAt "ass" i sep).data = false :=
        searchPat_kill_via _ _ _ (by decide) hnoinf
      have k3 : searchPat assPat3 (insertCharAt "ass" i sep).data = false :=
        searchPat_kill_via _ _ _ (by decide) hnoinf
      simp [h4, k1, k2, k3]
    · by_cases h6 : t = "cock"
      · subst h6
        have k1 : searchPat cockPat1 (insertCharAt "cock" i sep).data = false :=
          searchPat_kill_via _ _ _ (by decide) hnoinf
        have k2 : searchPat cockPat2 (insertCharAt "cock" i sep).data = false :=
          searchPat_kill_via _ _ _ (by decide) hnoinf
        have k3 : searchPat cockPat3 (insertCharAt "cock" i sep).data = false :=
          searchPat_kill_via _ _ _ (by decide) hnoinf
        have k4 : searchPat cockPat4 (insertCharAt "cock" i sep).data = false :=
          searchPat_kill_via _ _ _ (by decide) hnoinf
        simp [h4, h5, k1, k2, k3, k4]
      · by_cases h7 : t = "hell"
        · subst h7
          have k1 : searchPat hellPat1 (insertCharAt "hell" i sep).data = false :=
            searchPat_kill_via _ _ _ (by decide) hnoinf
          have k2 : searchPat hellPat2 (insertCharAt "hell" i sep).data = false :=
            searchPat_kill_via _ _ _ (by decide) hnoinf
          have k3 : searchPat hellPat3 (insertCharAt "hell" i sep).data = false :=
            searchPat_kill_via _ _ _ (by decide) hnoinf
          simp [h4, h5, h6, k1, k2, k3]
        · simp [h4, h5, h6, h7]

/-! Lemmas about dedupFirst, the bounded expansion loop and the
combination enumeration. -/

theorem dedupFirst_go_mem (x : String) :
    ∀ (l acc : List String),
      (x ∈ l.foldl (fun acc y => if y ∈ acc then acc else acc ++ [y]) acc) ↔
        (x ∈ acc ∨ x ∈ l) := by
  intro l
  induction l with
  | nil => intro acc; simp
  | cons a as ih =>
    intro acc
    simp only [List.foldl_cons]
    by_cases ha : a ∈ acc
    · rw [if_pos ha]
      constructor
      · intro h
        rcases (ih acc).mp h with h | h
        · exact Or.inl h
        · exact Or.inr (List.mem_cons_of_mem a h)
      · rintro (h | h)
        · exact (ih acc).mpr (Or.inl h)
        · rcases List.mem_cons.mp h with he | h
          · exact (ih acc).mpr (Or.inl (by rw [he]; exact ha))
          · exact (ih acc).mpr (Or.inr h)
    · rw [if_neg ha]
      constructor
      · intro h
        rcases (ih (acc ++ [a])).mp h with h | h
        · rcases List.mem_append.mp h with h | h
          · exact Or.inl h
          · simp at h
            exact Or.inr (h ▸ List.mem_cons_self a as)
        · exact Or.inr (List.mem_cons_of_mem a h)
      · rintro (h | h)
        · exact (ih (acc ++ [a])).mpr (Or.inl (List.mem_append.mpr (Or.inl h)))
        · rcases List.mem_cons.mp h with he | h
          · exact (ih (acc ++ [a])).mpr
              (Or.inl (List.mem_append.mpr (Or.inr (by simp [he]))))
          · exact (ih (acc ++ [a])).mpr (Or.inr h)

theorem dedupFirst_mem (l : List String) (x : String) :
    x ∈ dedupFirst l ↔ x ∈ l := by
  unfold dedupFirst
  rw [dedupFirst_go_mem x l []]
  simp

theorem dedupFirst_go_nodup :
    ∀ (l acc : List String), acc.Nodup →
      (l.foldl (fun acc y => if y ∈ acc then acc else acc ++ [y]) acc).Nodup := by
  intro l
  induction l with
  | nil => intro acc h; simpa using h
  | cons a as ih =>
    intro acc h
    simp only [List.foldl_cons]
    by_cases ha : a ∈ acc
    · rw [if_pos ha]; exact ih acc h
    · rw [if_neg ha]
      refine ih (acc ++ [a]) (List.Nodup.append h (List.nodup_singleton a) ?_)
      intro x hx hx2
      simp at hx2
      exact ha (hx2 ▸ hx)

theorem dedupFirst_nodup (l : List String) : (dedupFirst l).Nodup :=
  dedupFirst_go_nodup l [] List.nodup_nil

theorem expandLoop_length_le (cap : Nat) :
    ∀ (combos : List (List Char)) (acc : List String),
      acc.length < cap → (expandLoop cap combos acc).length ≤ cap
  | [], acc, h => by simpa [expandLoop] using Nat.le_of_lt h
  | c :: rest, acc, h => by
    simp only [expandLoop]
    by_cases hmem : String.mk c ∈ acc
    · rw [if_pos hmem, if_neg (by omega)]
      exact expandLoop_length_le cap rest acc h
    · rw [if_neg hmem]
      have hlen : (acc ++ [String.mk c]).length = acc.length + 1 := by simp
      by_cases hcap : cap ≤ (acc ++ [String.mk c]).length
      · rw [if_pos hcap]
        omega
      · rw [if_neg hcap]
        exact expandLoop_length_le cap rest (acc ++ [String.mk c]) (by omega)

theorem expandLoop_nodup (cap : Nat) :
    ∀ (combos : List (List Char)) (acc : List String),
      acc.Nodup → (expandLoop cap combos acc).Nodup
  | [], acc, h => by simpa [expandLoop] using h
  | c :: rest, acc, h => by
    simp only [expandLoop]
    by_cases hmem : String.mk c ∈ acc
    · rw [if_pos hmem]
      by_cases hcap : cap ≤ acc.length
      · rw [if_pos hcap]; exact h
      · rw [if_neg hcap]; exact expandLoop_nodup cap rest acc h
    · rw [if_neg hmem]
      have h2 : (acc ++ [String.mk c]).Nodup := by
        refine List.Nodup.append h (List.nodup_singleton _) ?_
        intro x hx hx2
        simp at hx2
        exact hmem (hx2 ▸ hx)
      by_cases hcap : cap ≤ (acc ++ [String.mk c]).length
      · rw [if_pos hcap]; exact h2
      · rw [if_neg hcap]; exact expandLoop_nodup cap rest (acc ++ [String.mk c]) h2

theorem expandLoop_mem (cap : Nat) :
    ∀ (combos : List (List Char)) (acc : List String) (v : String),
      v ∈ expandLoop cap combos acc →
        v ∈ acc ∨ ∃ c ∈ combos, v = String.mk c
  | [], acc, v, h => by
    simp only [expandLoop] at h
    exact Or.inl h
  | c :: rest, acc, v, h => by
    simp only [expandLoop] at h
    by_cases hmem : String.mk c ∈ acc
    · rw [if_pos hmem] at h
      by_cases hcap : cap ≤ acc.length
      · rw [if_pos hcap] at h
        exact Or.inl h
      · rw [if_neg hcap] at h
        rcases expandLoop_mem cap rest acc v h with h | ⟨d, hd, he⟩
        · exact Or.inl h
        · exact Or.inr ⟨d, List.mem_cons_of_mem c hd, he⟩
    · rw [if_neg hmem] at h
      by_cases hcap : cap ≤ (acc ++ [String.mk c]).length
      · rw [if_pos hcap] at h
        rcases List.mem_append.mp h with h | h
        · exact Or.inl h
        · simp at h
          exact Or.inr ⟨c, List.mem_cons_self c rest, h⟩
      · rw [if_neg hcap] at h
        rcases expandLoop_mem cap rest (acc ++ [String.mk c]) v h with h | ⟨d, hd, he⟩
        · rcases List.mem_append.mp h with h | h
          · exact Or.inl h
          · simp at h
            exact Or.inr ⟨c, List.mem_cons_self c rest, h⟩
        · exact Or.inr ⟨d, List.mem_cons_of_mem c hd, he⟩

theorem charCombos_length : ∀ (opts : List (List Char)) (c : List Char),
    c ∈ charCombos opts → c.length = opts.length
  | [], c, h => by
    simp only [charCombos, List.mem_singleton] at h
    subst h
    rfl
  | os :: rest, c, h => by
    simp only [charCombos, List.mem_flatMap, List.mem_map] at h
    obtain ⟨o, ho, tail, htail, rfl⟩ := h
    simp only [List.length_cons]
    rw [charCombos_length rest tail htail]


/-! Lemmas for separator insertion when the separator is itself regex
whitespace (the line and paragraph separators U+2028 / U+2029): the
preprocessor leaves such a message unchanged, the metaphone key of the
message equals the metaphone key of the term, and the phonetic stage
detects the term. -/

theorem takeWhile_eq_nil_of_false {p : Char → Bool} (l : List Char)
    (h : ∀ c ∈ l, p c = false) : l.takeWhile p = [] := by
  cases l with
  | nil => rfl
  | cons c cs => simp [List.takeWhile_cons, h c (List.mem_cons_self c cs)]

theorem tryCollapseMatch_of_short (c : Char) (cs : List Char)
    (h : (chainSteps cs.length cs).1.length ≤ 1) :
    tryCollapseMatch c cs = none := by
  simp only [tryCollapseMatch]
  split
  · split
    · split
      · omega
      · rfl
    · rfl
  · split
    · omega
    · rfl

theorem chainSteps_head_not_space (fuel : Nat) (l : List Char)
    (h : ∀ c, l.head? = some c → isPySpace c = false) :
    chainSteps fuel l = ([], l) := by
  cases fuel with
  | zero => rfl
  | succ n =>
    cases l with
    | nil => rfl
    | cons c cs =>
      have hc : isPySpace c = false := h c rfl
      simp [chainSteps, List.takeWhile_cons, hc]

theorem chainSteps_single_space (s : Char) (b : List Char) (fuel : Nat)
    (hb : ∀ c ∈ b, isPySpace c = false) :
    (chainSteps fuel (s :: b)).1.length ≤ 1 := by
  by_cases hsp : isPySpace s = true
  · cases fuel with
    | zero => exact Nat.zero_le 1
    | succ n =>
      have hws : (s :: b).takeWhile isPySpace = [s] := by
        rw [List.takeWhile_cons, if_pos hsp, takeWhile_eq_nil_of_false b hb]
      have hdrop : (s :: b).dropWhile isPySpace = b := by
        rw [List.dropWhile_cons, if_pos hsp, dropWhile_eq_self_of_false b hb]
      simp only [chainSteps, hws, hdrop]
      cases b with
      | nil => simp
      | cons d rest2 =>
        by_cases hd : isAsciiLetterCh d = true
        · have hrest : chainSteps n rest2 = ([], rest2) :=
            chainSteps_no_space n rest2
              (fun c hc => hb c (List.mem_cons_of_mem d hc))
          simp [hd, hrest]
        · simp [hd]
  · have hall : ∀ c ∈ s :: b, isPySpace c = false := by
      intro c hc
      rcases List.mem_cons.mp hc with he | hc
      · rw [he]
        revert hsp
        cases isPySpace s <;> simp
      · exact hb c hc
    rw [chainSteps_no_space fuel (s :: b) hall]
    exact Nat.zero_le 1

theorem collapseGo_single_space (s : Char) (hsl : isAsciiLetterCh s = false) :
    ∀ (fuel : Nat) (a : List Char) (prev : Option Char) (b : List Char),
      (∀ c ∈ a, isPySpace c = false) → (∀ c ∈ b, isPySpace c = false) →
      collapseGo fuel prev (a ++ s :: b) = a ++ s :: b
  | 0, a, prev, b, _, _ => rfl
  | fuel + 1, [], prev, b, _, hb => by
    rw [List.nil_append]
    simp only [collapseGo]
    have hguard : ¬ ((boundaryBefore prev && isAsciiLetterCh s) = true) := by
      rw [hsl, Bool.and_false]
      exact Bool.false_ne_true
    rw [if_neg hguard]
    rw [collapseGo_no_space fuel (some s) b hb]
  | fuel + 1, c :: a, prev, b, ha, hb => by
    have hc : ∀ x ∈ a, isPySpace x = false :=
      fun x hx => ha x (List.mem_cons_of_mem c hx)
    have hmatch : tryCollapseMatch c (a ++ s :: b) = none := by
      apply tryCollapseMatch_of_short
      cases a with
      | nil =>
        rw [List.nil_append]
        exact chainSteps_single_space s b _ hb
      | cons x a2 =>
        rw [chainSteps_head_not_space _ _ ?_]
        · exact Nat.zero_le 1
        · intro d hd
          simp only [List.cons_append, List.head?_cons, Option.some.injEq] at hd
          rw [← hd]
          exact hc x (List.mem_cons_self x a2)
    rw [List.cons_append]
    simp only [collapseGo]
    by_cases hg : (boundaryBefore prev && isAsciiLetterCh c) = true
    · rw [if_pos hg, hmatch]
      show c :: collapseGo fuel (some c) (a ++ s :: b) = c :: (a ++ s :: b)
      rw [collapseGo_single_space s hsl fuel a (some c) b hc hb]
    · rw [if_neg hg]
      rw [collapseGo_single_space s hsl fuel a (some c) b hc hb]

theorem dropWhile_head_not (p : Char → Bool) (l : List Char)
    (h : ∀ c, l.head? = some c → p c = false) : l.dropWhile p = l := by
  cases l with
  | nil => rfl
  | cons c cs => simp [List.dropWhile_cons, h c rfl]

theorem pyStrip_of_ends (s : String)
    (h1 : ∀ c, s.data.head? = some c → isPySpace c = false)
    (h2 : ∀ c, s.data.reverse.head? = some c → isPySpace c = false) :
    pyStrip s = s := by
  unfold pyStrip
  rw [dropWhile_head_not isPySpace s.data h1]
  rw [dropWhile_head_not isPySpace s.data.reverse h2]
  simp [string_mk_data]

theorem replacePair_id_of_chain (x z : Char) :
    ∀ (l : List Char), List.Chain' (· ≠ ·) l → replacePair x x z l = l
  | [], _ => rfl
  | [a], _ => rfl
  | a :: b :: rest, h => by
    have hab : a ≠ b := (List.chain'_cons.mp h).1
    have htail := (List.chain'_cons.mp h).2
    simp only [replacePair]
    rw [if_neg ?_]
    · rw [replacePair_id_of_chain x z (b :: rest) htail]
    · rintro ⟨he1, he2⟩
      exact hab (he1.trans he2.symm)

theorem replacePair_id_of_not_mem (x y z : Char) :
    ∀ (l : List Char), x ∉ l → replacePair x y z l = l
  | [], _ => rfl
  | [a], _ => rfl
  | a :: b :: rest, h => by
    have hax : ¬ (a = x ∧ b = y) := by
      rintro ⟨he, _⟩
      exact h (by rw [← he]; exact List.mem_cons_self a (b :: rest))
    simp only [replacePair]
    rw [if_neg hax]
    rw [replacePair_id_of_not_mem x y z (b :: rest)
      (fun hm => h (List.mem_cons_of_mem a hm))]

theorem letter_symbol_facts : ∀ c ∈ asciiLowercaseLetters,
    c ≠ '|' ∧ c ≠ '(' ∧ c ≠ '>' ∧ isAsciiLowerCh (normChar c) = true := by decide

theorem normalize_to_base_plain (l : List Char)
    (hch : List.Chain' (· ≠ ·) l)
    (hp : '|' ∉ l) (hc : '(' ∉ l) (hg : '>' ∉ l) :
    normalize_to_base (String.mk l) = String.mk (l.map normChar) := by
  simp only [normalize_to_base]
  rw [replacePair_id_of_chain 's' 'b' l hch]
  rw [replacePair_id_of_not_mem '|' ')' 'd' l hp]
  rw [replacePair_id_of_not_mem '(' ')' 'o' l hc]
  rw [replacePair_id_of_chain 'v' 'w' l hch]
  rw [replacePair_id_of_chain 'u' 'w' l hch]
  rw [replacePair_id_of_not_mem '>' '<' 'x' l hg]

theorem startsWithChars_refl : ∀ (l : List Char), startsWithChars l l = true
  | [] => rfl
  | c :: cs => by
    simp only [startsWithChars, startsWithChars_refl cs, Bool.and_true,
      beq_self_eq_true]

theorem containsSub_refl (l : List Char) : containsSub l l = true := by
  cases l with
  | nil => rfl
  | cons c cs =>
    unfold containsSub
    rw [startsWithChars_refl (c :: cs)]
    rfl

theorem simple_metaphone_congr (s1 s2 : String)
    (h : (normalize_to_base (strLower s1)).data.filter isAsciiLowerCh =
         (normalize_to_base (strLower s2)).data.filter isAsciiLowerCh) :
    simple_metaphone s1 = simple_metaphone s2 := by
  simp only [simple_metaphone]
  rw [h]

theorem metaphone_filter_insert (t : String) (sep : Char) (i : Nat)
    (hchars : ∀ c ∈ t.data, c ∈ asciiLowercaseLetters)
    (hchain : List.Chain' (· ≠ ·) t.data)
    (hnsep : ∀ c ∈ t.data, c ≠ sep)
    (hnc : normChar sep = sep)
    (hlo : isAsciiLowerCh sep = false)
    (hbar : sep ≠ '|') (hpar : sep ≠ '(') (hgt : sep ≠ '>') :
    (normalize_to_base (insertCharAt t i sep)).data.filter isAsciiLowerCh =
    (normalize_to_base t).data.filter isAsciiLowerCh := by
  have hchain2 : List.Chain' (· ≠ ·) (t.data.take i ++ sep :: t.data.drop i) :=
    chain'_insertList t.data i sep hchain hnsep
  have hnotmem : ∀ (x : Char), x ∉ asciiLowercaseLetters → x ≠ sep →
      x ∉ t.data.take i ++ sep :: t.data.drop i := by
    intro x hx hxs hmem
    rcases List.mem_append.mp hmem with h | h
    · exact hx (hchars x (List.take_subset i t.data h))
    · rcases List.mem_cons.mp h with h | h
      · exact hxs h
      · exact hx (hchars x (List.drop_subset i t.data h))
  have hn1 : normalize_to_base (insertCharAt t i sep) =
      String.mk ((t.data.take i ++ sep :: t.data.drop i).map normChar) :=
    normalize_to_base_plain (t.data.take i ++ sep :: t.data.drop i) hchain2
      (hnotmem '|' (by decide) hbar.symm) (hnotmem '(' (by decide) hpar.symm)
      (hnotmem '>' (by decide) hgt.symm)
  have hn2 : normalize_to_base t = String.mk (t.data.map normChar) := by
    have hx := normalize_to_base_plain t.data hchain
      (fun hm => (by decide : '|' ∉ asciiLowercaseLetters) (hchars _ hm))
      (fun hm => (by decide : '(' ∉ asciiLowercaseLetters) (hchars _ hm))
      (fun hm => (by decide : '>' ∉ asciiLowercaseLetters) (hchars _ hm))
    rw [string_mk_data] at hx
    exact hx
  rw [hn1, hn2, data_string_mk, data_string_mk]
  rw [List.map_append, List.map_cons, hnc]
  rw [List.filter_append]
  rw [List.filter_cons_of_neg (by rw [hlo]; exact Bool.false_ne_true)]
  have hfA : ((t.data.take i).map normChar).filter isAsciiLowerCh =
      (t.data.take i).map normChar := by
    apply filter_eq_self_of
    intro c hcm
    rcases List.mem_map.mp hcm with ⟨d, hd, he⟩
    rw [← he]
    exact (letter_symbol_facts d (hchars d (List.take_subset i t.data hd))).2.2.2
  have hfB : ((t.data.drop i).map normChar).filter isAsciiLowerCh =
      (t.data.drop i).map normChar := by
    apply filter_eq_self_of
    intro c hcm
    rcases List.mem_map.mp hcm with ⟨d, hd, he⟩
    rw [← he]
    exact (letter_symbol_facts d (hchars d (List.drop_subset i t.data hd))).2.2.2
  have hfT : (t.data.map normChar).filter isAsciiLowerCh = t.data.map normChar := by
    apply filter_eq_self_of
    intro c hcm
    rcases List.mem_map.mp hcm with ⟨d, hd, he⟩
    rw [← he]
    exact (letter_symbol_facts d (hchars d hd)).2.2.2
  rw [hfA, hfB, hfT]
  rw [← List.map_append, List.take_append_drop]

theorem preprocess_insert_space (t : String) (sep : Char) (i : Nat)
    (hchars : ∀ c ∈ t.data, c ∈ asciiLowercaseLetters)
    (hchain : List.Chain' (· ≠ ·) t.data)
    (hsp : isPySpace sep = true)
    (hnl : isAsciiLetterCh sep = false)
    (hna : isAsciiAlnumCh sep = false)
    (htl : sep.toLower = sep)
    (hnf : nfkcChar sep = sep)
    (hhg : homoglyphChar sep = sep)
    (h1 : 1 ≤ i) (h2 : i < t.length) :
    preprocess_text_for_filtering (insertCharAt t i sep) = insertCharAt t i sep := by
  have hnsep : ∀ c ∈ t.data, c ≠ sep := by
    intro c hc he
    have hal := (lowercaseLetter_facts c (hchars c hc)).2.2.1
    rw [he, hna] at hal
    exact Bool.false_ne_true hal
  have hchain2 : List.Chain' (· ≠ ·) (t.data.take i ++ sep :: t.data.drop i) :=
    chain'_insertList t.data i sep hchain hnsep
  have hmempt : ∀ c ∈ (insertCharAt t i sep).data,
      nfkcChar c = c ∧ homoglyphChar c = c ∧ Char.toLower c = c ∧
      (isAsciiAlnumCh c || isPySpace c) = true := by
    intro c hc
    rcases mem_insertCharAt t i sep c hc with h | h
    · have hf := lowercaseLetter_facts c (hchars c h)
      exact ⟨hf.1, hf.2.1, hf.2.2.2.1, by rw [hf.2.2.1, Bool.true_or]⟩
    · subst h
      exact ⟨hnf, hhg, htl, by rw [hna, hsp, Bool.false_or]⟩
  have hstep1 : nfkcStr (insertCharAt t i sep) = insertCharAt t i sep := by
    unfold nfkcStr
    rw [map_id_of _ (fun c hc => (hmempt c hc).1)]
  have hstep2 : normalize_homoglyphs (insertCharAt t i sep) = insertCharAt t i sep := by
    unfold normalize_homoglyphs
    rw [map_id_of _ (fun c hc => (hmempt c hc).2.1)]
  have hstep3 : squash_repeats (insertCharAt t i sep) = insertCharAt t i sep := by
    have hd := squash_repeats_data (insertCharAt t i sep)
    rw [show (insertCharAt t i sep).data =
      t.data.take i ++ sep :: t.data.drop i from rfl] at hd
    rw [squashList_eq_of_chain _ hchain2] at hd
    calc squash_repeats (insertCharAt t i sep)
        = String.mk (squash_repeats (insertCharAt t i sep)).data :=
          (string_mk_data _).symm
      _ = String.mk (t.data.take i ++ sep :: t.data.drop i) := by rw [hd]
      _ = insertCharAt t i sep := rfl
  have hstep4 : collapse_spaced_letters (insertCharAt t i sep) = insertCharAt t i sep := by
    unfold collapse_spaced_letters
    rw [show (insertCharAt t i sep).data =
      t.data.take i ++ sep :: t.data.drop i from rfl]
    rw [collapseGo_single_space sep hnl
      (t.data.take i ++ sep :: t.data.drop i).length
      (t.data.take i) none (t.data.drop i)
      (fun c hc => (lowercaseLetter_facts c
        (hchars c (List.take_subset i t.data hc))).2.2.2.2.1)
      (fun c hc => (lowercaseLetter_facts c
        (hchars c (List.drop_subset i t.data hc))).2.2.2.2.1)]
    rfl
  have hstep5 : strip_nonalpha_punct (insertCharAt t i sep) = insertCharAt t i sep := by
    unfold strip_nonalpha_punct
    rw [filter_eq_self_of _ (fun c hc => (hmempt c hc).2.2.2)]
  have hstep6 : strLower (insertCharAt t i sep) = insertCharAt t i sep := by
    unfold strLower
    rw [map_id_of _ (fun c hc => (hmempt c hc).2.2.1)]
  have hstep7 : pyStrip (insertCharAt t i sep) = insertCharAt t i sep := by
    apply pyStrip_of_ends
    · intro c hc
      obtain ⟨j, hj⟩ : ∃ j, i = j + 1 := ⟨i - 1, by omega⟩
      have htd : t.data ≠ [] := by
        intro h0
        rw [string_length_data, h0] at h2
        exact Nat.not_lt_zero i h2
      obtain ⟨c0, t2, ht0⟩ : ∃ c0 t2, t.data = c0 :: t2 := by
        cases htd2 : t.data with
        | nil => exact absurd htd2 htd
        | cons a l => exact ⟨a, l, rfl⟩
      rw [show (insertCharAt t i sep).data =
        t.data.take i ++ sep :: t.data.drop i from rfl] at hc
      rw [ht0, hj, List.take_succ_cons] at hc
      simp only [List.cons_append, List.head?_cons, Option.some.injEq] at hc
      rw [← hc]
      exact (lowercaseLetter_facts c0
        (hchars c0 (by rw [ht0]; exact List.mem_cons_self c0 t2))).2.2.2.2.1
    · intro c hc
      have hdr : t.data.drop i ≠ [] := by
        intro h0
        have hld := List.length_drop i t.data
        rw [h0] at hld
        simp only [List.length_nil] at hld
        rw [string_length_data] at h2
        omega
      rw [show (insertCharAt t i sep).data =
        t.data.take i ++ sep :: t.data.drop i from rfl] at hc
      rw [List.reverse_append, List.reverse_cons] at hc
      cases hrev : (t.data.drop i).reverse with
      | nil => exact absurd (List.reverse_eq_nil_iff.mp hrev) hdr
      | cons d ds =>
        rw [hrev] at hc
        simp only [List.cons_append, List.head?_cons, Option.some.injEq] at hc
        rw [← hc]
        have hd2 : d ∈ t.data := by
          have hmem : d ∈ (t.data.drop i).reverse := by
            rw [hrev]
            exact List.mem_cons_self d ds
          exact List.drop_subset i t.data (List.mem_reverse.mp hmem)
        exact (lowercaseLetter_facts d (hchars d hd2)).2.2.2.2.1
  unfold preprocess_text_for_filtering
  rw [hstep1, hstep2, hstep3, hstep4, hstep5, hstep6, hstep7]

theorem insertion_detected_space_sep (swears : List String) (strict : Bool)
    (t : String) (sep : Char) (i : Nat)
    (ht : t ∈ swears)
    (hchars : ∀ c ∈ t.data, c ∈ asciiLowercaseLetters)
    (hchain : List.Chain' (· ≠ ·) t.data)
    (hsp : isPySpace sep = true)
    (hnl : isAsciiLetterCh sep = false)
    (hlo : isAsciiLowerCh sep = false)
    (hna : isAsciiAlnumCh sep = false)
    (htl : sep.toLower = sep)
    (hnf : nfkcChar sep = sep)
    (hhg : homoglyphChar sep = sep)
    (hnc : normChar sep = sep)
    (hbar : sep ≠ '|') (hpar : sep ≠ '(') (hgt : sep ≠ '>')
    (h1 : 1 ≤ i) (h2 : i < t.length) :
    (contains_swear_word ⟨swears, [], strict, []⟩ (insertCharAt t i sep)).1
      = true := by
  have hm : (insertCharAt t i sep).data ≠ [] := by
    rw [insertCharAt_data]
    intro h
    simp at h
  have hsw : swears ≠ [] := by
    intro h
    rw [h] at ht
    exact List.not_mem_nil t ht
  have hnsep : ∀ c ∈ t.data, c ≠ sep := by
    intro c hc he
    have hal := (lowercaseLetter_facts c (hchars c hc)).2.2.1
    rw [he, hna] at hal
    exact Bool.false_ne_true hal
  have hpre : preprocess_text_for_filtering (insertCharAt t i sep) =
      insertCharAt t i sep :=
    preprocess_insert_space t sep i hchars hchain hsp hnl hna htl hnf hhg h1 h2
  have hlowt : strLower t = t := by
    unfold strLower
    rw [map_id_of t.data
      (fun c hc => (lowercaseLetter_facts c (hchars c hc)).2.2.2.1)]
  have hlowm : strLower (insertCharAt t i sep) = insertCharAt t i sep := by
    unfold strLower
    rw [map_id_of _ ?_]
    intro c hc
    rcases mem_insertCharAt t i sep c hc with h | h
    · exact (lowercaseLetter_facts c (hchars c h)).2.2.2.1
    · rw [h]
      exact htl
  have hmeta : simple_metaphone (insertCharAt t i sep) = simple_metaphone t := by
    apply simple_metaphone_congr
    rw [hlowm, hlowt]
    exact metaphone_filter_insert t sep i hchars hchain hnsep hnc hlo hbar hpar hgt
  rw [contains_fresh_eq swears [] strict _ hm hsw]
  have hphon : phoneticStageHit swears (insertCharAt t i sep)
      (preprocess_text_for_filtering (insertCharAt t i sep)) = true := by
    rw [hpre]
    simp only [phoneticStageHit]
    rw [List.any_eq_true]
    refine ⟨t, ht, ?_⟩
    rw [Bool.and_eq_true]
    refine ⟨?_, ?_⟩
    · rw [hmeta]
      exact containsSub_refl _
    · rw [check_context_insert_false t sep i hchars hna htl h1 h2]
      rfl
  rw [hphon]
  simp [safeStageHit]

theorem insertion_detected_nonspace (swears : List String) (strict : Bool)
    (t : String) (sep : Char) (i : Nat)
    (ht : t ∈ swears)
    (hchars : ∀ c ∈ t.data, c ∈ asciiLowercaseLetters)
    (hchain : List.Chain' (· ≠ ·) t.data)
    (hsep : sep ∈ nonSpaceHiddenSeparators)
    (h1 : 1 ≤ i) (h2 : i < t.length) :
    (contains_swear_word ⟨swears, [], strict, []⟩ (insertCharAt t i sep)).1
      = true := by
  have hm : (insertCharAt t i sep).data ≠ [] := by
    rw [insertCharAt_data]
    intro h
    simp at h
  have hsw : swears ≠ [] := by
    intro h
    rw [h] at ht
    exact List.not_mem_nil t ht
  rw [contains_fresh_eq swears [] strict _ hm hsw]
  have hpre : preprocess_text_for_filtering (insertCharAt t i sep) = t :=
    preprocess_insert t sep i hchars hchain hsep h2
  have htne : t.data ≠ [] := by
    intro h
    rw [string_length_data, h] at h2
    exact Nat.not_lt_zero i h2
  have hwt : wordTokens (preprocess_text_for_filtering (insertCharAt t i sep))
      = [t] := by
    rw [hpre]
    exact wordTokens_single t htne
      (fun c hc => (lowercaseLetter_facts c (hchars c hc)).2.2.2.2.2.1)
      (fun c hc => (lowercaseLetter_facts c (hchars c hc)).2.2.2.2.2.2)
  rw [hwt]
  have hdir : directStageHit swears (insertCharAt t i sep) [t] = true := by
    unfold directStageHit
    simp only [List.any_cons, List.any_nil, Bool.or_false]
    rw [check_context_insert_false t sep i hchars
      (sep_facts sep hsep).2.2.2.2.1 (sep_facts sep hsep).2.2.2.2.2 h1 h2]
    simp [ht]
  rw [hdir]
  simp [safeStageHit]

/-! Claim theorems. -/

/-- C1: the Result Cache stores the verdict false for the message, yet the
call does not return the stored verdict: the walrus-style truthiness test of
the source ignores a cached false, re-executes the pipeline and returns
true.  This exhibits, at a concrete cache state, that a stored verdict is
not returned as such; the cache-hit early return only triggers for stored
true verdicts. -/
theorem claim1_cached_false_ignored :
    List.lookup "damn" [("damn", false)] = some false ∧
    (contains_swear_word ⟨["damn"], [], false, [("damn", false)]⟩ "damn").1
      = true := by
  constructor
  · rfl
  · decide

/-- C2: contains_swear_word is a total function of the embedded state (it is
a Lean function); it returns false on the empty string for every constructed
filter, and returns false on every message for a filter constructed from an
empty banned-term collection. -/
theorem claim2_total_on_degenerate_inputs :
    (∀ (ws : List String) (strict : Bool),
        (contains_swear_word (mkSwearFilter ws strict) "").1 = false) ∧
    (∀ (strict : Bool) (m : String),
        (contains_swear_word (mkSwearFilter [] strict) m).1 = false) := by
  constructor
  · intro ws strict
    have hempty : ("" : String).data.isEmpty = true := rfl
    simp [contains_swear_word, mkSwearFilter, hempty, List.lookup_nil]
  · intro strict m
    simp [contains_swear_word, mkSwearFilter, dedupFirst, List.lookup_nil]

/-- C3 (counterexample): the preprocessor is not idempotent.  On the input
a.a the punctuation-stripping step creates the new repetition aa, which only
the second application squashes: preprocess of a.a is aa while preprocess of
aa is a. -/
theorem claim3_counterexample :
    preprocess_text_for_filtering (preprocess_text_for_filtering "a.a") ≠
      preprocess_text_for_filtering "a.a" := by decide

/-- C3 (amended): the preprocessing pipeline is idempotent on strings built
only from lowercase ASCII letters and digits, where it reduces to repeat
squashing, which is idempotent.  (On general strings, stripping punctuation
or collapsing spaced letters can create new repetitions after the squash
step has already run, and a second application squashes them: see the
counterexample.) -/
theorem claim3_amended (s : String)
    (h : ∀ c ∈ s.data, c ∈ lowercaseAlnumChars) :
    preprocess_text_for_filtering (preprocess_text_for_filtering s) =
      preprocess_text_for_filtering s := by
  rw [preprocess_plain s h]
  have hmem : ∀ c ∈ (squash_repeats s).data, c ∈ lowercaseAlnumChars := by
    intro c hc
    rw [squash_repeats_data] at hc
    exact h c (squashList_subset s.data c hc)
  rw [preprocess_plain _ hmem]
  exact squash_repeats_idem s

/-- Witness for C3 (amended) at the concrete input abc. -/
theorem claim3_witness :
    preprocess_text_for_filtering (preprocess_text_for_filtering "abc") =
      preprocess_text_for_filtering "abc" :=
  claim3_amended "abc" (by decide)

/-- C4 (counterexample): inserting the zero-width space U+200B (a member of
the hidden-separator set) at position 3 inside the banned term avvva
prevents detection: the plain term is detected, the separated message is
not.  (The squash step collapses the separated vv run, and the metaphone
keys of avva and avvva diverge, so every stage misses.) -/
theorem claim4_counterexample :
    '​' ∈ HIDDEN_SEPARATORS ∧
    insertCharAt "avvva" 3 '​' = "avv​va" ∧
    (contains_swear_word (mkSwearFilter ["avvva"] false) "avvva").1 = true ∧
    (contains_swear_word (mkSwearFilter ["avvva"] false) "avv​va").1
      = false := by
  refine ⟨by decide, by decide, by decide, by decide⟩

/-- C4 (amended): for a banned term made of lowercase ASCII letters that repeat
squashing leaves unchanged (no two equal adjacent letters), inserting ANY
hidden separator at any position strictly inside the term never prevents
detection by a freshly constructed filter: for the non-whitespace separators
preprocessing deletes the separator and restores the exact term and the
direct stage fires, while for the line and paragraph separators U+2028 and
U+2029 (regex whitespace, which preprocessing keeps) the phonetic stage
strips the separator and matches the term's metaphone key; in both cases the
context whitelist cannot fire on the separated original message. -/
theorem claim4_amended (swears : List String) (strict : Bool)
    (t : String) (sep : Char) (i : Nat)
    (ht : t ∈ swears)
    (hchars : ∀ c ∈ t.data, c ∈ asciiLowercaseLetters)
    (hns : squash_repeats t = t)
    (hsep : sep ∈ HIDDEN_SEPARATORS)
    (h1 : 1 ≤ i) (h2 : i < t.length) :
    (contains_swear_word ⟨swears, [], strict, []⟩ (insertCharAt t i sep)).1
      = true := by
  have hchain : List.Chain' (· ≠ ·) t.data := by
    have hd : squashList t.data = t.data := by
      rw [← squash_repeats_data, hns]
    rw [← hd]
    exact squashList_chain t.data
  have hsplit : ∀ c ∈ HIDDEN_SEPARATORS,
      c ∈ nonSpaceHiddenSeparators ∨ c = '\u2028' ∨ c = '\u2029' := by decide
  rcases hsplit sep hsep with h | h | h
  · exact insertion_detected_nonspace swears strict t sep i ht hchars hchain
      h h1 h2
  · subst h
    exact insertion_detected_space_sep swears strict t '\u2028' i ht hchars
      hchain (by decide) (by decide) (by decide) (by decide) (by decide)
      (by decide) (by decide) (by decide) (by decide) (by decide) (by decide)
      h1 h2
  · subst h
    exact insertion_detected_space_sep swears strict t '\u2029' i ht hchars
      hchain (by decide) (by decide) (by decide) (by decide) (by decide)
      (by decide) (by decide) (by decide) (by decide) (by decide) (by decide)
      h1 h2

/-- Witness for C4 (amended): the specification example itself, the banned
term fuck with a zero-width space inserted after its first letter. -/
theorem claim4_witness :
    (contains_swear_word ⟨["fuck"], [], false, []⟩
      (insertCharAt "fuck" 1 '​')).1 = true :=
  claim4_amended ["fuck"] false "fuck" '​' 1 (by decide) (by decide)
    (by decide) (by decide) (by decide) (by decide)

/-- C5 (counterexample): the claim that the two expansion call sites use the
two different default caps 50000 and 10000 is false: the substring-level
expansion of the root+suffix stage also calls expand_all_normalizations with
no explicit cap, hence with the 50000 default; the 10000 default belongs to
the helper _expand_variants, which the pipeline never invokes. -/
theorem claim5_counterexample :
    rootSuffixExpansionCap = 50000 ∧ expandVariantsDefaultLimit = 10000 ∧
    rootSuffixExpansionCap ≠ expandVariantsDefaultLimit := by
  refine ⟨rfl, rfl, by decide⟩

/-- C5 (amended): variant expansion always terminates (it is a total Lean
function) and, for every positive cap, returns a duplicate-free list of at
most cap strings; both pipeline call sites (whole-token raw expansion and
the substring expansion of the root+suffix stage) use the single 50000
default cap. -/
theorem claim5_amended (w : String) (cap : Nat) (hcap : 1 ≤ cap) :
    (expand_all_normalizations w cap).length ≤ cap ∧
    (expand_all_normalizations w cap).Nodup ∧
    wholeTokenExpansionCap = 50000 ∧ rootSuffixExpansionCap = 50000 := by
  refine ⟨?_, ?_, rfl, rfl⟩
  · exact expandLoop_length_le cap _ [] (by simpa using hcap)
  · exact expandLoop_nodup cap _ [] List.nodup_nil

/-- Witness for C5 (amended) at the concrete token ab and cap 1. -/
theorem claim5_witness :
    (expand_all_normalizations "ab" 1).length ≤ 1 ∧
    (expand_all_normalizations "ab" 1).Nodup ∧
    wholeTokenExpansionCap = 50000 ∧ rootSuffixExpansionCap = 50000 :=
  claim5_amended "ab" 1 (by decide)

/-- C6 (counterexample): a normalized token (hero) lies in the safe-word set
and not in the banned set, yet the message is classified as banned, because
the raw-token expansion stage runs before the safe-word veto and matches the
other token: the veto is not message-wide over all stages. -/
theorem claim6_counterexample :
    "hero" ∈ (SwearFilter.mk ["damn"] ["hero"] false []).safe_words ∧
    "hero" ∉ (SwearFilter.mk ["damn"] ["hero"] false []).swear_words ∧
    "hero" ∈ wordTokens (preprocess_text_for_filtering "damn hero") ∧
    (contains_swear_word ⟨["damn"], ["hero"], false, []⟩ "damn hero").1
      = true := by
  refine ⟨by decide, by decide, by decide, by decide⟩

/-- C6 (amended): provided the raw-token expansion stage finds no match, any
normalized token that is in the safe-word set and not itself banned vetoes
the entire message; and the assassin / ass example of the specification does
return false.  (In the embedding the example is allowed not by the veto but
because squashing turns the token into asasin, which no stage matches.) -/
theorem claim6_amended :
    (∀ (swears safes : List String) (strict : Bool) (m : String),
        rawStageHit swears m = false →
        (∃ w ∈ wordTokens (preprocess_text_for_filtering m),
            w ∈ safes ∧ w ∉ swears) →
        (contains_swear_word ⟨swears, safes, strict, []⟩ m).1 = false) ∧
    (contains_swear_word ⟨["ass"], ["assassin"], false, []⟩ "assassin").1
      = false := by
  constructor
  · intro swears safes strict m hraw hex
    by_cases hm : m.data = []
    · have hm2 : m.data.isEmpty = true := by rw [hm]; rfl
      simp [contains_swear_word, hm2, List.lookup_nil]
    · by_cases hsw : swears = []
      · subst hsw
        simp [contains_swear_word, List.lookup_nil]
      · rw [contains_fresh_eq swears safes strict m hm hsw]
        have hsafe : safeStageHit swears safes
            (wordTokens (preprocess_text_for_filtering m)) = true := by
          obtain ⟨w, hw1, hw2, hw3⟩ := hex
          unfold safeStageHit
          rw [List.any_eq_true]
          exact ⟨w, hw1, by simp [hw2, hw3]⟩
        rw [hraw, hsafe]
        rfl
  · decide

/-- Witness for C6 (amended): safe word hero, banned set ass, message hero:
the raw stage misses, the veto fires, the verdict is false. -/
theorem claim6_witness :
    (contains_swear_word ⟨["ass"], ["hero"], false, []⟩ "hero").1 = false :=
  claim6_amended.1 ["ass"] ["hero"] false "hero" (by decide) (by decide)

/-- C7 (counterexample): a filter constructed from a banned-term collection
without an external safe-word collection has an empty safe-word set, not the
built-in COMMON_SAFE_WORDS default: hello is in COMMON_SAFE_WORDS but not in
the constructed safe-word set. -/
theorem claim7_counterexample :
    (mkSwearFilter ["damn"] false).safe_words = [] ∧
    "hello" ∈ COMMON_SAFE_WORDS ∧
    "hello" ∉ (mkSwearFilter ["damn"] false).safe_words := by
  refine ⟨rfl, by decide, by decide⟩

/-- C7 (amended): construction gives the filter an empty safe-word set (the
built-in set is only the fallback of the separate load_safe_words helper,
which construction does not invoke), and a banned-term set that is exactly
the duplicate-free, lowercased, whitespace-trimmed image of the supplied
collection. -/
theorem claim7_amended (ts : List String) (strict : Bool) :
    (mkSwearFilter ts strict).safe_words = [] ∧
    (mkSwearFilter ts strict).swear_words.Nodup ∧
    (∀ w, w ∈ (mkSwearFilter ts strict).swear_words ↔
      ∃ x ∈ ts, w = pyStrip (strLower x)) := by
  refine ⟨rfl, dedupFirst_nodup _, ?_⟩
  intro w
  show w ∈ dedupFirst (ts.map fun x => pyStrip (strLower x)) ↔ _
  rw [dedupFirst_mem, List.mem_map]
  constructor
  · rintro ⟨x, hx, he⟩
    exact ⟨x, hx, he.symm⟩
  · rintro ⟨x, hx, he⟩
    exact ⟨x, hx, he.symm⟩

/-- C8: with ass banned and the built-in whitelist rules active, the message
about submitting the assignment is classified as allowed (the phonetic
stage is the only stage that fires and the assignment-context rule vetoes
it), and a term with no registered whitelist rules is never whitelisted. -/
theorem claim8_context_whitelist :
    (contains_swear_word (mkSwearFilter ["ass"] false)
      "Please submit the assignment").1 = false ∧
    (∀ (message word : String),
        word ∉ (["cunt", "ass", "cock", "hell"] : List String) →
        check_context message word = false) := by
  constructor
  · decide
  · intro message word h
    simp only [List.mem_cons, List.not_mem_nil, or_false, not_or] at h
    simp [check_context, h.1, h.2.1, h.2.2]

/-- Witness for C8 at a concrete unregistered term. -/
theorem claim8_witness : check_context "no rules here" "foo" = false :=
  claim8_context_whitelist.2 "no rules here" "foo" (by decide)

/-- C9 (counterexample): the pipeline short-form stage performs no secondary
leetspeak-stripping pass: the helper _check_short_swears classifies f1k as a
short swear after stripping the digit, yet the pipeline returns false on the
single-token message f1k. -/
theorem claim9_counterexample :
    check_short_swears "f1k" = true ∧
    (contains_swear_word (mkSwearFilter ["zzzz"] false) "f1k").1 = false := by
  refine ⟨by decide, by decide⟩

/-- C9 (amended): the short-form stage of the pipeline classifies a message
whose normalization is a single token of length at most 3 listed in
SHORT_SWEARS as a match; the secondary pass that strips leetspeak digits and
symbols exists only in the helper _check_short_swears, which the pipeline
does not call (see the counterexample). -/
theorem claim9_amended (swears : List String) (strict : Bool) (m w : String)
    (hsw : swears ≠ [])
    (hw : wordTokens (preprocess_text_for_filtering m) = [w])
    (hlen : w.length ≤ 3) (hmem : w ∈ SHORT_SWEARS) :
    (contains_swear_word ⟨swears, [], strict, []⟩ m).1 = true := by
  have hm : m.data ≠ [] := by
    intro h
    have hm0 : m = "" := by
      calc m = String.mk m.data := (string_mk_data m).symm
        _ = "" := by rw [h]
    rw [hm0] at hw
    have hnil : wordTokens (preprocess_text_for_filtering "") = [] := rfl
    rw [hnil] at hw
    exact List.cons_ne_nil w [] hw.symm
  rw [contains_fresh_eq swears [] strict m hm hsw, hw]
  have hshort : shortStageHit [w] = true := by
    simp [shortStageHit, hlen, hmem]
  rw [hshort]
  simp [safeStageHit]

/-- Witness for C9 (amended) at the message wtf with banned set zzzz. -/
theorem claim9_witness :
    (contains_swear_word ⟨["zzzz"], [], false, []⟩ "wtf").1 = true :=
  claim9_amended ["zzzz"] false "wtf" "wtf" (by decide) (by decide)
    (by decide) (by decide)

/-- C10: every string produced by variant expansion has exactly as many
characters as the expanded token, because each character expands only to
single-character base characters; in particular the token vv, which spells w
through a registered two-character impersonation, never expands to w. -/
theorem claim10_expansion_preserves_length (w : String) (cap : Nat)
    (v : String) (hv : v ∈ expand_all_normalizations w cap) :
    v.length = w.length ∧ "w" ∉ expand_all_normalizations "vv" 50000 := by
  constructor
  · unfold expand_all_normalizations at hv
    rcases expandLoop_mem cap _ [] v hv with h | ⟨c, hc, he⟩
    · simp at h
    · have h1 : c.length = (w.data.map charOptions).length :=
        charCombos_length _ c hc
      rw [List.length_map] at h1
      rw [he]
      calc (String.mk c).length = c.length := rfl
        _ = w.data.length := h1
        _ = w.length := rfl
  · decide

/-- Witness for C10 at the token vv and its expansion element uu. -/
theorem claim10_witness :
    ("uu" : String).length = ("vv" : String).length ∧
    "w" ∉ expand_all_normalizations "vv" 50000 :=
  claim10_expansion_preserves_length "vv" 50000 "uu" (by decide)
